import Mathlib

/-!
Verification of the treport repository-scanning core.

This file gives a shallow embedding, in Lean 4, of the parts of the
treport source that the checked properties talk about: the change-action
string mapping, repository-URL resolution, the git-history traversal
strategies, the typed-envelope exchange, the per-analyzer result cache,
the plan builder (cache paths, pipeline IDs, cache invalidation), and the
scan orchestration over steps and analyzers.  External libraries (go-git,
badger, protobuf, sha1) are modelled at their interfaces: tree diffing
and hashing are parameters, the key-value store is an association list
with an explicit not-found/error split, and protobuf packing is a
self-describing pair of a type name and a wire payload.
-/

namespace Treport

/-! ## Association-list maps

Go maps are modelled as association lists with unique keys: `lookupA`
finds the first binding, `setA` overwrites the first binding for a key or
appends a new one.  Only these two operations are used, mirroring the
single-key reads and writes the source performs on its maps.
-/

def lookupA {α : Type} (l : List (String × α)) (k : String) : Option α :=
  match l with
  | [] => none
  | (k', v) :: rest => if k' = k then some v else lookupA rest k

def setA {α : Type} (l : List (String × α)) (k : String) (v : α) : List (String × α) :=
  match l with
  | [] => [(k, v)]
  | (k', v') :: rest => if k' = k then (k', v) :: rest else (k', v') :: setA rest k v

/-! ## Change actions (src/unnamed/part_002 `ActionType`, src/convert.go)

Go's `ActionType` is an `int` with constants `Deleted = 0`, `Added = 1`,
`Updated = 2`; we model it as `Int` so that "every other value" is
meaningful.
-/

def Deleted : Int := 0
def Added : Int := 1
def Updated : Int := 2

/-- `ActionType.String` from src/unnamed/part_002: a switch on the three
constants with `"Updated"` as the default arm. -/
def actionTypeString (t : Int) : String :=
  if t = Deleted then "Deleted"
  else if t = Added then "Added"
  else if t = Updated then "Updated"
  else "Updated"

/-- `protoToAction` from src/convert.go: a switch on the three strings
with `Updated` as the default arm. -/
def protoToAction (action : String) : Int :=
  if action = "Added" then Added
  else if action = "Deleted" then Deleted
  else if action = "Updated" then Updated
  else Updated

/-! ## Repository URL resolution (src/repository.go `RepositoryConfig.RepoPath`)

The source matches the declared URL against the regular expression
`^http?s://(.+)$` (note: the `?` makes the `p` optional, so the literal
prefixes accepted are `https://` and `htts://`) and, on a match, returns
the capture group — everything after the prefix — as the relative path.
In Go's regexp package `.` does not match a newline and, absent the `m`
flag, `$` anchors at the end of the text, so the remainder must be
nonempty and newline-free.  An empty declared URL is replaced by the
treport repository itself.
-/

def treportRepoPath : String := "github.com/goccy/treport"

/-- Result of `urlMatcher.FindAllStringSubmatch`: `some rest` when the URL
matches `^http?s://(.+)$` with capture `rest`, `none` otherwise.  The `?`
binds the `p`, so the prefix is `https://` or `htts://`; `(.+)$` demands
a nonempty remainder without a newline. -/
def urlMatch (s : String) : Option String :=
  match s.data with
  | 'h' :: 't' :: 't' :: 'p' :: 's' :: ':' :: '/' :: '/' :: rest =>
    if rest ≠ [] ∧ '\n' ∉ rest then some ⟨rest⟩ else none
  | 'h' :: 't' :: 't' :: 's' :: ':' :: '/' :: '/' :: rest =>
    if rest ≠ [] ∧ '\n' ∉ rest then some ⟨rest⟩ else none
  | _ => none

/-- The invalid-path error carries the declared URL
(`ErrInvalidRepositoryPath` in src/error.go). -/
structure InvalidRepositoryPathError where
  path : String
  deriving DecidableEq, Repr

/-- `RepositoryConfig.RepoPath` from src/repository.go. -/
def RepoPath (repo : String) : Except InvalidRepositoryPathError String :=
  if repo = "" then .ok treportRepoPath
  else
    match urlMatch repo with
    | some rest => .ok rest
    | none => .error ⟨repo⟩

/-! ## Typed envelopes (src/plugin.go `ToResponse`, `GetData`, `storeResult`)

A protobuf message value is modelled as a self-describing pair of its
fully qualified type name and its wire payload; `anypb.New` wraps it with
a type URL, `anypb.UnmarshalTo` unwraps it into a target of a given
message type, failing on a type-URL mismatch.  Field-by-field equality of
message values is equality of `PMsg`.
-/

structure PMsg where
  typeName : String
  wire : List Nat
  deriving DecidableEq, Repr

structure AnyMsg where
  typeUrl : String
  value : List Nat
  deriving DecidableEq, Repr

def typeUrlPrefix : String := "type.googleapis.com/"

def anypbNew (m : PMsg) : AnyMsg :=
  ⟨typeUrlPrefix ++ m.typeName, m.wire⟩

def anypbUnmarshalTo (a : AnyMsg) (targetName : String) : Except String PMsg :=
  if a.typeUrl = typeUrlPrefix ++ targetName then .ok ⟨targetName, a.value⟩
  else .error "mismatched message type"

/-- The `treportproto.ScanResponse` envelope: type name, packed payload,
canonical JSON rendering. -/
structure ScanResponse where
  name : String
  data : AnyMsg
  json : String
  deriving DecidableEq, Repr

abbrev DataMap := List (String × ScanResponse)

/-- Error message of `ErrNoData` in src/plugin.go. -/
def ErrNoData : String := "data does not exist"

/-- `ScanContext.GetData` from src/plugin.go: look the target message
type name up in the `data` map; absent means `ErrNoData`, otherwise the
stored packed payload is unmarshalled into the target. -/
def GetData (dataMap : DataMap) (targetName : String) : Except String PMsg :=
  match lookupA dataMap targetName with
  | none => .error ErrNoData
  | some resp => anypbUnmarshalTo resp.data targetName

/-- `ToResponse` from src/plugin.go: `name` is the message type name,
`data` the payload packed with its type URL, `json` the canonical JSON
rendering (the JSON marshaller is a parameter). -/
def ToResponse (jsonOf : PMsg → String) (m : PMsg) : ScanResponse :=
  ⟨m.typeName, anypbNew m, jsonOf m⟩

/-- Mutable per-traversal part of a `ScanContext`: the typed-data map and
the plugin-name → produced-type map. -/
structure CtxSt where
  data : DataMap
  pluginToType : List (String × String)
  deriving DecidableEq, Repr

/-- `Client.storeResult` from src/plugin.go: store the envelope under its
type name and record the producing plugin's type name if absent. -/
def storeResult (pluginName : String) (result : ScanResponse) (st : CtxSt) : CtxSt :=
  { data := setA st.data result.name result
    pluginToType :=
      match lookupA st.pluginToType pluginName with
      | some _ => st.pluginToType
      | none => setA st.pluginToType pluginName result.name }

/-! ## Git history traversal (src/repository.go)

go-git is modelled at its interface: a commit carries its hash, committer
time, parent hashes and tree; `Log` with `LogOrderCommitterTime` yields
the reachable commits newest first (descending committer time), which the
source materializes into the slice `allCommits`; we take that slice
(`log`) as part of the repository model.  Tree diffing
(`prevTree.DiffContext`) is an external algorithm and is a parameter
`diff` of the traversals.
-/

structure FileM where
  name : String
  mode : Nat
  size : Int
  hash : String
  deriving DecidableEq, Repr

structure Tree where
  hash : String
  files : List FileM
  deriving DecidableEq, Repr

structure GitCommit where
  hash : String
  committerTime : Nat
  parentHashes : List String
  tree : Tree
  deriving DecidableEq, Repr

structure ChangeM where
  action : Int
  from_ : Option FileM
  to_ : Option FileM
  deriving DecidableEq, Repr

structure SnapshotM where
  hash : String
  entries : List FileM
  deriving DecidableEq, Repr

/-- `toSnapshot` from src/convert.go: the tree hash plus its file
entries. -/
def toSnapshot (t : Tree) : SnapshotM :=
  ⟨t.hash, t.files⟩

/-- A repository handle: the commit storage and the materialized
committer-time-ordered log (newest first), as produced by the go-git
iterator in `HeadOnly`/`AllCommits`. -/
structure GitRepo where
  commits : List GitCommit
  log : List GitCommit

def lookupCommit (r : GitRepo) (h : String) : Option GitCommit :=
  r.commits.find? (fun c => c.hash == h)

/-- `Repository.firstTree` from src/repository.go: take the commit's
first parent from the parents iterator (an empty iterator yields EOF)
and return that parent's tree. -/
def firstTree (r : GitRepo) (c : GitCommit) : Except String Tree :=
  match c.parentHashes with
  | [] => .error "EOF"
  | p :: _ =>
    match lookupCommit r p with
    | none => .error "object not found"
    | some pc => .ok pc.tree

/-- One state of the traversal's (single, mutated) `ScanContext` as seen
by the callback: the commit, its snapshot and the converted changes. -/
structure CBRec where
  commit : GitCommit
  snapshot : SnapshotM
  changes : List ChangeM
  deriving DecidableEq, Repr

/-- The replay loop shared by `AllCommits` (src/repository.go lines
146-180): `prev?` is the `prevTree` variable, `none` until the first
iteration resolves the first replayed commit's first-parent tree. -/
def replay (diff : Tree → Tree → List ChangeM) (r : GitRepo) :
    Option Tree → List GitCommit → Except String (List CBRec)
  | _, [] => .ok []
  | none, c :: rest => do
    let prev ← firstTree r c
    let recs ← replay diff r (some c.tree) rest
    pure ({ commit := c, snapshot := toSnapshot c.tree, changes := diff prev c.tree } :: recs)
  | some prev, c :: rest => do
    let recs ← replay diff r (some c.tree) rest
    pure ({ commit := c, snapshot := toSnapshot c.tree, changes := diff prev c.tree } :: recs)

/-- `Repository.AllCommits` from src/repository.go: materialize the
newest-first log, then run the loop `for i := n-1; i > 0; i--`, i.e.
replay the entries at indices `n-1 … 1` — oldest to newest, skipping
index 0. -/
def AllCommits (diff : Tree → Tree → List ChangeM) (r : GitRepo) :
    Except String (List CBRec) :=
  replay diff r none (r.log.drop 1).reverse

/-- `Repository.HeadOnly` from src/repository.go: take the first commit
of the committer-time-ordered log (EOF means no callback), build a
context with its snapshot and no changes, invoke the callback once. -/
def HeadOnlyRun (r : GitRepo) : Except String (List CBRec) :=
  match r.log with
  | [] => .ok []
  | c :: _ => .ok [{ commit := c, snapshot := toSnapshot c.tree, changes := [] }]

/-- Pure form of the replay loop once the base tree is resolved: each
commit is diffed against the running previous tree, which starts at the
given base and becomes the commit's own tree afterwards.  `replay` with a
resolved `prevTree` never consults the repository again and equals this
function (see `replay_some_eq`). -/
def replayPure (diff : Tree → Tree → List ChangeM) : Tree → List GitCommit → List CBRec
  | _, [] => []
  | prev, c :: rest =>
    { commit := c, snapshot := toSnapshot c.tree, changes := diff prev c.tree }
      :: replayPure diff c.tree rest

/-! ## Per-analyzer result cache and `Plugin.Scan`
(src/unnamed/part_002 lines 169-242)

The badger store is modelled as an association list from revision hash to
either a stored envelope or a poisoned entry standing for an I/O or
deserialization failure; an absent key is badger's `ErrKeyNotFound`.
-/

inductive CacheVal where
  | resp (r : ScanResponse)
  | ioFail (e : String)
  deriving DecidableEq, Repr

abbrev CacheDB := List (String × CacheVal)

/-- `Plugin.GetCache`: `ErrKeyNotFound` becomes `(nil, nil)` — an `ok
none` — while any other store error is propagated; a present entry is the
deserialized envelope. -/
def GetCache (db : CacheDB) (commitID : String) : Except String (Option ScanResponse) :=
  match lookupA db commitID with
  | none => .ok none
  | some (.resp r) => .ok (some r)
  | some (.ioFail e) => .error e

/-- `Plugin.StoreCache`: write a single entry keyed by the revision
hash. -/
def StoreCache (db : CacheDB) (commitID : String) (resp : ScanResponse) : CacheDB :=
  setA db commitID (.resp resp)

/-- A `ScanContext` as serialized over the RPC (`ScanContext.toProto`
sends commit, snapshot, changes and the `Data` map; `pluginToType` is
unexported and not sent). -/
structure SentCtx where
  base : CBRec
  data : DataMap
  deriving DecidableEq, Repr

/-- `Plugin.Scan` for a single revision: on a cache hit store the cached
envelope into the context and return with no RPC; on a miss issue exactly
one RPC (the analyzer subprocess is the pure function `emit`), store the
result into the context and write it to the cache.  The returned list
records the contexts sent over the RPC (`[]` or one element). -/
def PluginScan (pluginName : String) (emit : SentCtx → ScanResponse)
    (db : CacheDB) (st : CtxSt) (rec : CBRec) :
    Except String (CtxSt × CacheDB × List SentCtx) :=
  match GetCache db rec.commit.hash with
  | .error e => .error e
  | .ok (some cached) => .ok (storeResult pluginName cached st, db, [])
  | .ok none =>
    let sent : SentCtx := ⟨rec, st.data⟩
    let resp := emit sent
    .ok (storeResult pluginName resp st, StoreCache db rec.commit.hash resp, [sent])

/-- One analyzer task over a strategy traversal: the callback
(`plg.Scan`) runs serially over the produced contexts, threading the
single mutable `ScanContext` state and the analyzer's cache. -/
def runTraversal (pluginName : String) (emit : SentCtx → ScanResponse) :
    CacheDB → CtxSt → List CBRec → Except String (CtxSt × CacheDB × List SentCtx)
  | db, st, [] => .ok (st, db, [])
  | db, st, rec :: rest =>
    match PluginScan pluginName emit db st rec with
    | .error e => .error e
    | .ok (st', db', sent) =>
      match runTraversal pluginName emit db' st' rest with
      | .error e => .error e
      | .ok (stFin, dbFin, sents) => .ok (stFin, dbFin, sent ++ sents)

/-! ## Scan orchestration over one (pipeline, repository)
(src/unnamed/part_001 `Scanner.scanWithPipelineAndRepo`)

Steps run sequentially; the plugins of a step run concurrently but on
disjoint state — each plugin task invokes its own strategy traversal,
which builds a fresh `ScanContext` (empty `Data`), and reads and writes
only its own cache — so the step is modelled as a fold over its plugins.
`revs` is the context stream the strategy produces (identical for every
plugin of the traversed repository, which is read-only after `Sync`).
-/

abbrev Caches := List (String × CacheDB)

abbrev AnalyzerEnv := String → SentCtx → ScanResponse

def runStepPlugins (env : AnalyzerEnv) (revs : List CBRec) :
    Caches → List String → Except String (Caches × List (String × List SentCtx))
  | caches, [] => .ok (caches, [])
  | caches, name :: rest =>
    match runTraversal name (env name) ((lookupA caches name).getD []) ⟨[], []⟩ revs with
    | .error e => .error e
    | .ok (_, db', sent) =>
      match runStepPlugins env revs (setA caches name db') rest with
      | .error e => .error e
      | .ok (cachesFin, log) => .ok (cachesFin, (name, sent) :: log)

def runSteps (env : AnalyzerEnv) (revs : List CBRec) :
    Caches → List (List String) → Except String (Caches × List (List (String × List SentCtx)))
  | caches, [] => .ok (caches, [])
  | caches, names :: rest =>
    match runStepPlugins env revs caches names with
    | .error e => .error e
    | .ok (caches', slog) =>
      match runSteps env revs caches' rest with
      | .error e => .error e
      | .ok (cachesFin, logs) => .ok (cachesFin, slog :: logs)

/-! ## Plan builder (src/error.go `CreatePipelines`, `createPipelineID`;
src/unnamed/part_002 `Step.PluginIDs`, `PluginVersionDB`)

The analyzer catalog (`pluginMap`) maps plugin names to shared `*Plugin`
objects; a step holds references into that map, so the mutable
`CachePath` slot of a plugin is shared by every step, repository and
pipeline that names it.  The sha1-hex `makeHashID` is a parameter `h`.
The version registry is an association list keyed by plugin name;
deletions (`os.RemoveAll` of a cache directory) are recorded in order.
-/

structure PluginObj where
  repoID : String
  mtime : Nat
  cachePath : String
  deriving DecidableEq, Repr

abbrev Env := List (String × PluginObj)

structure RegEntry where
  version : Nat
  lastUpdatedTime : Nat
  deriving DecidableEq, Repr

abbrev Registry := List (String × RegEntry)

structure StepObj where
  idx : Nat
  names : List String
  cachePath : String
  deriving DecidableEq, Repr

structure PRepo where
  rid : String
  steps : List StepObj
  cachePath : String
  deriving DecidableEq, Repr

structure PipelineObj where
  id : String
  cachePath : String
  repos : List PRepo
  deriving DecidableEq, Repr

structure PipelineCfg where
  strategy : String
  repos : List String
  steps : List (List String)

/-- `fmt.Sprintf("%03d", idx)`: the step index zero padded to at least
three digits. -/
def pad3 (n : Nat) : String :=
  if n < 10 then "00" ++ toString n
  else if n < 100 then "0" ++ toString n
  else toString n

/-- `filepath.Join` on the clean, slash-free components the plan builder
produces. -/
def pathJoin (a b : String) : String := a ++ "/" ++ b

def pluginRepoID (env : Env) (name : String) : String :=
  ((lookupA env name).map PluginObj.repoID).getD ""

def pluginGet (env : Env) (name : String) : PluginObj :=
  (lookupA env name).getD ⟨"", 0, ""⟩

/-- Byte-lexicographic comparison of character lists, as `sort.Strings`
compares Go strings. -/
def charListLe : List Char → List Char → Bool
  | [], _ => true
  | _ :: _, [] => false
  | a :: as, b :: bs =>
    if a < b then true
    else if b < a then false
    else charListLe as bs

def strLe (a b : String) : Bool := charListLe a.data b.data

/-- `sort.Strings`: sort a string list lexicographically. -/
def sortStrings (l : List String) : List String :=
  l.insertionSort (fun a b => strLe a b = true)

/-- `Step.PluginIDs` from src/unnamed/part_002: the source-repo IDs of
the step's plugins, sorted. -/
def stepPluginIDs (env : Env) (names : List String) : List String :=
  sortStrings (names.map (pluginRepoID env))

/-- `createPipelineID` from src/error.go: the strategy followed by every
step's sorted plugin IDs, joined with `":"`, hashed. -/
def createPipelineID (h : String → String) (env : Env) (strategy : String)
    (steps : List StepObj) : String :=
  h (String.intercalate ":" (strategy :: steps.flatMap (fun s => stepPluginIDs env s.names)))

/-- Step construction from the configured step list (`&Step{Idx: idx}`
per declared step, holding references to the shared plugin objects);
`i` is the running value of the `range` index. -/
def buildRepoStepsFrom (i : Nat) : List (List String) → List StepObj
  | [] => []
  | names :: rest => ⟨i, names, ""⟩ :: buildRepoStepsFrom (i + 1) rest

def buildRepoSteps (stepsCfg : List (List String)) : List StepObj :=
  buildRepoStepsFrom 0 stepsCfg

def buildPipelineRepos (cfg : PipelineCfg) : List PRepo :=
  cfg.repos.map (fun rid => ⟨rid, buildRepoSteps cfg.steps, ""⟩)

/-- Overwrite the shared plugin object's `CachePath` slot (the catalog
has one binding per plugin name). -/
def setPluginPath : Env → String → String → Env
  | [], _, _ => []
  | (k', v') :: rest, name, path =>
    if k' = name then (k', { v' with cachePath := path }) :: setPluginPath rest name path
    else (k', v') :: setPluginPath rest name path

/-- The plugin loop of cache-path propagation for one step: for each
plugin in step order, `plg.CachePath = step.CachePath / plg.Repo.ID`. -/
def setStepPluginPaths (sc : String) (env : Env) (names : List String) : Env :=
  names.foldl (fun e n => setPluginPath e n (pathJoin sc (pluginRepoID e n))) env

/-- Cache-path propagation for one step: `step.CachePath =
repo.CachePath / %03d idx`, then the step's plugins. -/
def propagateStep (repoCache : String) (acc : Env × List StepObj) (s : StepObj) :
    Env × List StepObj :=
  (setStepPluginPaths (pathJoin repoCache (pad3 s.idx)) acc.1 s.names,
   acc.2 ++ [{ s with cachePath := pathJoin repoCache (pad3 s.idx) }])

/-- Cache-path propagation for one repository: `repo.CachePath =
pipeline.CachePath / repo.ID`, then every step. -/
def propagateRepo (pipelineCache : String) (acc : Env × List PRepo) (r : PRepo) :
    Env × List PRepo :=
  let res := r.steps.foldl (propagateStep (pathJoin pipelineCache r.rid)) (acc.1, [])
  (res.1, acc.2 ++ [{ r with cachePath := pathJoin pipelineCache r.rid, steps := res.2 }])

/-- `PluginVersionDB.IsUpdated`: true when no registry entry exists or
the plugin binary's mtime is strictly after the recorded time. -/
def IsUpdated (reg : Registry) (name : String) (p : PluginObj) : Bool :=
  match lookupA reg name with
  | none => true
  | some e => decide (e.lastUpdatedTime < p.mtime)

/-- `PluginVersionDB.Update`: insert with version 1 or increment the
version, overwriting the recorded time with the binary's mtime. -/
def regUpdate (reg : Registry) (name : String) (mtime : Nat) : Registry :=
  match lookupA reg name with
  | none => setA reg name ⟨1, mtime⟩
  | some e => setA reg name ⟨e.version + 1, mtime⟩

/-- The plugin loop of the invalidation pass: every plugin of the step is
checked (the flag does not short-circuit within a step); an updated
plugin has its shared `CachePath` slot deleted, sets the flag and
persists its version. -/
def invalidatePlugins (env : Env) (acc : Bool × Registry × List String)
    (names : List String) : Bool × Registry × List String :=
  names.foldl
    (fun st n =>
      let p := pluginGet env n
      if IsUpdated st.2.1 n p then (true, regUpdate st.2.1 n p.mtime, st.2.2 ++ [p.cachePath])
      else st)
    acc

/-- The step loop: a set flag deletes the step's cache directory and
continues; otherwise the step's plugins are checked. -/
def invalidateStep (env : Env) (acc : Bool × Registry × List String) (s : StepObj) :
    Bool × Registry × List String :=
  if acc.1 then (true, acc.2.1, acc.2.2 ++ [s.cachePath])
  else invalidatePlugins env (acc.1, acc.2) s.names

/-- The repository loop: the flag is reset to false after each
repository, equivalently starts false for each repository. -/
def invalidateRepo (env : Env) (acc : Registry × List String) (r : PRepo) :
    Registry × List String :=
  (r.steps.foldl (invalidateStep env) (false, acc.1, acc.2)).2

def invalidatePipeline (env : Env) (acc : Registry × List String)
    (repos : List PRepo) : Registry × List String :=
  repos.foldl (invalidateRepo env) acc

/-- Result of building one pipeline. -/
structure PipelineBuild where
  pipeline : PipelineObj
  env : Env
  registry : Registry
  deleted : List String
  deriving Repr

/-- Result of the plan-building pass: the pipelines with their paths, the
shared plugin objects with their final cache paths, the persisted
registry, and every cache directory deleted, in deletion order. -/
structure BuildOut where
  pipelines : List PipelineObj
  env : Env
  registry : Registry
  deleted : List String
  deriving Repr

def allResolvable (env : Env) (stepsCfg : List (List String)) : Bool :=
  stepsCfg.all (fun names => names.all (fun n => (lookupA env n).isSome))

/-- The pipeline cache path `root_cache / pipeline.id` a configuration
produces (every repository shares the configured step list, so the first
repository's steps are `buildRepoSteps cfg.steps`). -/
def pipelineCachePathOf (h : String → String) (rootCache : String) (env : Env)
    (cfg : PipelineCfg) : String :=
  pathJoin rootCache (createPipelineID h env cfg.strategy (buildRepoSteps cfg.steps))

/-- The propagation phase of one pipeline build: shared plugin objects
and repository tree after all cache paths are assigned. -/
def propagatedOf (h : String → String) (rootCache : String) (env : Env)
    (cfg : PipelineCfg) : Env × List PRepo :=
  (buildPipelineRepos cfg).foldl
    (propagateRepo (pipelineCachePathOf h rootCache env cfg)) (env, [])

/-- The invalidation phase of one pipeline build: registry and deletion
record after the cascade. -/
def invalidatedOf (h : String → String) (rootCache : String) (env : Env)
    (reg : Registry) (deleted : List String) (cfg : PipelineCfg) :
    Registry × List String :=
  invalidatePipeline (propagatedOf h rootCache env cfg).1 (reg, deleted)
    (propagatedOf h rootCache env cfg).2

/-- Build one pipeline: resolve plugins, compute the pipeline ID from the
*first* repository's step list, propagate cache paths over every
repository, then run the invalidation cascade over every repository.
A reference to an unknown plugin fails the build, and a pipeline with no
repositories indexes `Repos[0]` out of range. -/
def createPipeline (h : String → String) (rootCache : String) (env : Env)
    (reg : Registry) (deleted : List String) (cfg : PipelineCfg) :
    Except String PipelineBuild :=
  if ¬ allResolvable env cfg.steps then .error "failed to find plugin"
  else
    match buildPipelineRepos cfg with
    | [] => .error "index out of range"
    | r0 :: rest =>
      let pid := createPipelineID h env cfg.strategy r0.steps
      let pcache := pathJoin rootCache pid
      let prop := (r0 :: rest).foldl (propagateRepo pcache) (env, [])
      let inv := invalidatePipeline prop.1 (reg, deleted) prop.2
      .ok ⟨⟨pid, pcache, prop.2⟩, prop.1, inv.1, inv.2⟩

/-- `CreatePipelines` (the identity, path and invalidation phases): the
configured pipelines are processed sequentially, threading the shared
plugin objects, the version registry and the deletion record. -/
def CreatePipelines (h : String → String) (rootCache : String) (env : Env)
    (reg : Registry) : List PipelineCfg → Except String BuildOut
  | [] => .ok ⟨[], env, reg, []⟩
  | cfg :: rest =>
    match createPipeline h rootCache env reg [] cfg with
    | .error e => .error e
    | .ok res =>
      match CreatePipelines h rootCache res.env res.registry rest with
      | .error e => .error e
      | .ok out =>
        .ok ⟨res.pipeline :: out.pipelines, out.env, out.registry, res.deleted ++ out.deleted⟩

/-! ## Predicates used by the statements -/

/-- No stored envelope of the cache carries the given type name. -/
def dbAvoids (tn : String) (db : CacheDB) : Prop :=
  ∀ p ∈ db, ∀ resp, p.2 = CacheVal.resp resp → resp.name ≠ tn

/-- The spec's per-step cache directory:
`cache/<pipeline.id>/<repo.id>/<step_idx_3digit>`. -/
def stepCachePath (pipelineCache rid : String) (idx : Nat) : String :=
  pathJoin (pathJoin pipelineCache rid) (pad3 idx)

/-- The spec's per-analyzer cache directory:
`cache/<pipeline.id>/<repo.id>/<step_idx_3digit>/<analyzer_source_repo.id>`. -/
def analyzerCachePath (pipelineCache rid : String) (idx : Nat) (repoID : String) : String :=
  pathJoin (stepCachePath pipelineCache rid idx) repoID

/-- The per-step cache directories of consecutive steps starting at index
`i`, one per configured step. -/
def stepCachePathsFrom (pipelineCache rid : String) : Nat → List (List String) → List String
  | _, [] => []
  | i, _ :: rest => stepCachePath pipelineCache rid i :: stepCachePathsFrom pipelineCache rid (i + 1) rest

/-- The projection of a plugin entry that the plan builder never mutates:
its source-repo ID and binary mtime. -/
def pluginCore (env : Env) (n : String) : Option (String × Nat) :=
  (lookupA env n).map (fun p => (p.repoID, p.mtime))

/-! ## Concrete instances used by counterexamples and witnesses -/

def treeT0 : Tree := ⟨"t0", []⟩
def treeT1 : Tree := ⟨"t1", [⟨"a.txt", 33188, 5, "ba"⟩]⟩
def treeT2 : Tree := ⟨"t2", [⟨"a.txt", 33188, 9, "bb"⟩]⟩

/-- A parentless root commit and two descendants with increasing
committer times. -/
def commitC0 : GitCommit := ⟨"c0", 1, [], treeT0⟩
def commitC1 : GitCommit := ⟨"c1", 2, ["c0"], treeT1⟩
def commitC2 : GitCommit := ⟨"c2", 3, ["c1"], treeT2⟩

/-- A linear three-commit history reachable from HEAD; the log is newest
first, as go-git's committer-time iteration produces it. -/
def chainRepo : GitRepo := ⟨[commitC2, commitC1, commitC0], [commitC2, commitC1, commitC0]⟩

/-- The same storage with a log of only the two newest commits, so the
oldest log entry still has a resolvable first parent. -/
def basedRepo : GitRepo := ⟨[commitC2, commitC1, commitC0], [commitC2, commitC1]⟩

/-- An empty repository: no commits, empty log. -/
def emptyRepo : GitRepo := ⟨[], []⟩

/-- A trivial tree-diff function for concrete runs. -/
def diffNil : Tree → Tree → List ChangeM := fun _ _ => []

def sizeMsg : PMsg := ⟨"SizeData", [100]⟩
def respSize : ScanResponse := ⟨"SizeData", anypbNew sizeMsg, ""⟩
def respOther : ScanResponse := ⟨"BData", anypbNew ⟨"BData", []⟩, ""⟩
def emitSize : SentCtx → ScanResponse := fun _ => respSize
def emitOther : SentCtx → ScanResponse := fun _ => respOther

/-- Analyzer environment: analyzer `A` always emits `SizeData{size:100}`
and analyzer `B` emits its own `BData` type. -/
def envAB : AnalyzerEnv := fun n => if n = "A" then emitSize else emitOther

/-- The context `HeadOnly` produces for `chainRepo`. -/
def revHead : CBRec := { commit := commitC2, snapshot := toSnapshot treeT2, changes := [] }

/-- Shared plugin objects: `a` has source-repo ID `A` and binary mtime 5,
`z` has ID `Z` and mtime 0. -/
def envP : Env := [("a", ⟨"A", 5, ""⟩), ("z", ⟨"Z", 0, ""⟩)]

/-- Registry: `a` recorded at time 3 (older than its mtime 5, so
updated), `z` recorded at its own mtime (not updated). -/
def regP : Registry := [("a", ⟨1, 3⟩), ("z", ⟨1, 0⟩)]

/-- A stand-in hash function for concrete runs. -/
def hashConst : String → String := fun _ => "P"

/-- Two repositories, analyzer `a` in step 0 and `z` in step 1. -/
def cfgTwoRepos : PipelineCfg := ⟨"allCommit", ["r1", "r2"], [["a"], ["z"]]⟩

/-- One repository, analyzer `a` in step 0 and `z` in step 1. -/
def cfgOneRepo : PipelineCfg := ⟨"allCommit", ["r1"], [["a"], ["z"]]⟩

/-- One repository, one step referencing `z` then `a` (unsorted). -/
def cfgSortW : PipelineCfg := ⟨"allCommit", ["r1"], [["z", "a"]]⟩

/-- The same analyzer name `p` referenced by two different steps. -/
def cfgDup : PipelineCfg := ⟨"headOnly", ["r1"], [["p"], ["p"]]⟩
def envDup : Env := [("p", ⟨"PID", 0, ""⟩)]
def regDup : Registry := [("p", ⟨1, 0⟩)]

/-! # Supporting lemmas -/

theorem string_eq_empty_iff (s : String) : s = "" ↔ s.data = [] := by
  constructor
  · intro h; rw [h]
  · intro h; cases s; simp_all

theorem lookupA_setA_self {α : Type} (l : List (String × α)) (k : String) (v : α) :
    lookupA (setA l k v) k = some v := by
  induction l with
  | nil => simp [setA, lookupA]
  | cons hd tl ih =>
    by_cases h : hd.1 = k
    · simp [setA, lookupA, h]
    · simp [setA, lookupA, h, ih]

theorem lookupA_setA_ne {α : Type} (l : List (String × α)) (k k' : String) (v : α)
    (h : k ≠ k') : lookupA (setA l k v) k' = lookupA l k' := by
  induction l with
  | nil => simp [setA, lookupA, h]
  | cons hd tl ih =>
    by_cases hk : hd.1 = k
    · simp [setA, lookupA, hk, h]
    · by_cases hk' : hd.1 = k'
      · simp [setA, lookupA, hk, hk', Ne.symm h]
      · simp [setA, lookupA, hk, hk', ih]

/-! # Claim C10: change-action string mapping -/

/-- C10: the change-action string mapping is total and round-trips on the
three named actions: `ActionType.String` returns `"Added"`, `"Deleted"`,
`"Updated"` on the corresponding constants and `"Updated"` on every other
`ActionType` value; `protoToAction` maps the three strings back to the
constants and every other string to `Updated`; consequently
`protoToAction (a.String()) = a` for `a` among the three constants. -/
theorem c10_action_mapping :
    actionTypeString Deleted = "Deleted" ∧ actionTypeString Added = "Added" ∧
      actionTypeString Updated = "Updated" ∧
    (∀ t : Int, t ≠ Deleted → t ≠ Added → t ≠ Updated → actionTypeString t = "Updated") ∧
    protoToAction "Added" = Added ∧ protoToAction "Deleted" = Deleted ∧
      protoToAction "Updated" = Updated ∧
    (∀ s : String, s ≠ "Added" → s ≠ "Deleted" → s ≠ "Updated" → protoToAction s = Updated) ∧
    (∀ t : Int, (t = Deleted ∨ t = Added ∨ t = Updated) →
      protoToAction (actionTypeString t) = t) := by
  refine ⟨by decide, by decide, by decide, ?_, by decide, by decide, by decide, ?_, ?_⟩
  · intro t h0 h1 h2
    simp [actionTypeString, h0, h1, h2]
  · intro s h0 h1 h2
    simp [protoToAction, h0, h1, h2]
  · rintro t (rfl | rfl | rfl) <;> decide

/-- Witness for C10 at concrete inputs: the value `7` is none of the
three constants and maps to `"Updated"`, the string `"insert"` maps to
`Updated`, and the round trip holds at `Added`. -/
theorem c10_action_mapping_witness :
    actionTypeString 7 = "Updated" ∧ protoToAction "insert" = Updated ∧
      protoToAction (actionTypeString Added) = Added := by
  obtain ⟨-, -, -, h4, -, -, -, h8, h9⟩ := c10_action_mapping
  exact ⟨h4 7 (by decide) (by decide) (by decide),
    h8 "insert" (by decide) (by decide) (by decide),
    h9 Added (Or.inr (Or.inl rfl))⟩

/-! # Claim C7: repository URL resolution -/

/-- C7 counterexample: `http://example.com/foo` is of the form
`http://host/path`, which the property says must be accepted, yet
`RepoPath` rejects it with `InvalidRepositoryPath` — the source pattern
`^http?s://(.+)$` makes the `p` optional, not the `s`, so plain
`http://` URLs never match. -/
theorem c7_counterexample :
    RepoPath "http://example.com/foo" =
      Except.error ⟨"http://example.com/foo"⟩ ∧
    "http://example.com/foo" = "http://" ++ "example.com/foo" :=
  ⟨rfl, rfl⟩

/-- C7 (amended): resolution fails with `InvalidRepositoryPath` carrying
the declared URL exactly when the URL is nonempty and does not match
`^http?s://(.+)$`; the matching URLs are `https://rest` and `htts://rest`
with `rest` nonempty and newline-free (so `git@github.com:foo/bar.git`
and every plain `http://` URL are rejected); an empty declared URL is
replaced by the treport repository path; for every accepted URL the
remainder after the prefix — the host+path segment — becomes the
relative filesystem path. -/
theorem c7_repo_path (s rest : String) :
    (RepoPath s = .error ⟨s⟩ ↔ s ≠ "" ∧ urlMatch s = none) ∧
    (rest ≠ "" → ¬ '\n' ∈ rest.data →
      RepoPath ("https://" ++ rest) = .ok rest ∧
      RepoPath ("htts://" ++ rest) = .ok rest) ∧
    (urlMatch s = some rest → RepoPath s = .ok rest) ∧
    RepoPath "" = .ok treportRepoPath ∧
    RepoPath "git@github.com:foo/bar.git" =
      .error ⟨"git@github.com:foo/bar.git"⟩ := by
  have hmatch : ∀ t : String, t ≠ "" → ¬ '\n' ∈ t.data →
      urlMatch ("https://" ++ t) = some t ∧ urlMatch ("htts://" ++ t) = some t := by
    intro t ht hn
    have htd : t.data ≠ [] := fun h => ht ((string_eq_empty_iff t).2 h)
    have h1 : ("https://" ++ t).data
        = 'h' :: 't' :: 't' :: 'p' :: 's' :: ':' :: '/' :: '/' :: t.data := by
      simp
    have h2 : ("htts://" ++ t).data
        = 'h' :: 't' :: 't' :: 's' :: ':' :: '/' :: '/' :: t.data := by
      simp
    constructor
    · rw [urlMatch, h1]
      simp [htd, hn]
    · rw [urlMatch, h2]
      simp [htd, hn]
  have hne : ∀ t : String, urlMatch t = some rest → t ≠ "" := by
    intro t hm ht
    rw [ht] at hm
    simp [urlMatch] at hm
  refine ⟨?_, ?_, ?_, rfl, rfl⟩
  · by_cases hs : s = ""
    · subst hs
      simp [RepoPath, treportRepoPath]
    · rw [RepoPath, if_neg hs]
      cases hm : urlMatch s with
      | none => simp [hs]
      | some r => simp [hm, hs]
  · intro ht hn
    obtain ⟨m1, m2⟩ := hmatch rest ht hn
    have n1 : ("https://" ++ rest) ≠ "" := by
      intro h
      have := (string_eq_empty_iff _).1 h
      simp at this
    have n2 : ("htts://" ++ rest) ≠ "" := by
      intro h
      have := (string_eq_empty_iff _).1 h
      simp at this
    constructor
    · rw [RepoPath, if_neg n1, m1]
    · rw [RepoPath, if_neg n2, m2]
  · intro hm
    rw [RepoPath, if_neg (hne s hm), hm]

/-- Witness for C7 at concrete inputs: the treport repository URL itself
is accepted with host+path `github.com/goccy/treport`, and a URL not of
the accepted shapes produces the carried error. -/
theorem c7_repo_path_witness :
    RepoPath "https://github.com/goccy/treport" = .ok "github.com/goccy/treport" ∧
    RepoPath "git@github.com:foo/bar.git" =
      .error ⟨"git@github.com:foo/bar.git"⟩ := by
  obtain ⟨-, h2, -, -, h5⟩ := c7_repo_path "x" "github.com/goccy/treport"
  obtain ⟨ha, -⟩ := h2 (by decide) (by decide)
  exact ⟨ha, h5⟩

/-! # Claim C8: typed envelope round trip -/

/-- C8: building the envelope sets `name` to the message type name and
`packed_bytes` to the packed payload; after a `Scan` whose envelope was
built from `m` is stored into the context, `GetData` targeting `m`'s
message type recovers a value equal to `m` field by field; and `GetData`
fails with `NoData` exactly when the data map holds no entry for the
target's message type name. -/
theorem c8_envelope_roundtrip (jsonOf : PMsg → String) (m : PMsg)
    (pluginName : String) (st : CtxSt) (d : DataMap) (targetName : String) :
    (ToResponse jsonOf m).name = m.typeName ∧
    (ToResponse jsonOf m).data = anypbNew m ∧
    GetData (storeResult pluginName (ToResponse jsonOf m) st).data m.typeName = .ok m ∧
    (GetData d targetName = .error ErrNoData ↔ lookupA d targetName = none) := by
  refine ⟨rfl, rfl, ?_, ?_⟩
  · show GetData (setA st.data m.typeName (ToResponse jsonOf m)) m.typeName = .ok m
    rw [GetData, lookupA_setA_self]
    show anypbUnmarshalTo (anypbNew m) m.typeName = .ok m
    simp [anypbUnmarshalTo, anypbNew]
  · rw [GetData]
    cases h : lookupA d targetName with
    | none => simp
    | some resp =>
      simp only [anypbUnmarshalTo]
      by_cases hu : resp.data.typeUrl = typeUrlPrefix ++ targetName
      · simp [hu]
      · simp only [if_neg hu]
        constructor
        · intro h'
          exact absurd (Except.error.inj h') (by decide)
        · intro h'
          exact absurd h' (by simp)

/-- Witness for C8 at a concrete message: a `SizeData` message with wire
payload `[100]` stored by a scan is recovered exactly, and a lookup in an
empty data map fails with `NoData`. -/
theorem c8_envelope_roundtrip_witness :
    GetData (storeResult "size"
        (ToResponse (fun _ => "") ⟨"SizeData", [100]⟩) ⟨[], []⟩).data
      "SizeData" = .ok ⟨"SizeData", [100]⟩ ∧
    GetData [] "SizeData" = .error ErrNoData := by
  obtain ⟨-, -, h3, h4⟩ :=
    c8_envelope_roundtrip (fun _ => "") ⟨"SizeData", [100]⟩ "size" ⟨[], []⟩ [] "SizeData"
  exact ⟨h3, h4.2 rfl⟩

/-! # Claim C5: per-revision cache behavior of `Plugin.Scan` -/

/-- C5: for a revision whose hash is cached, `Plugin.Scan` stores the
cached envelope into the scan context and issues no RPC; for an absent
key (the store's not-found condition) it issues exactly one Scan RPC and
writes the result to the cache; `GetCache` returns null exactly for the
not-found condition, and any other store error is propagated as a
failure. -/
theorem c5_plugin_scan_cache (pluginName : String) (emit : SentCtx → ScanResponse)
    (db : CacheDB) (st : CtxSt) (rec : CBRec) :
    (∀ cached, lookupA db rec.commit.hash = some (.resp cached) →
      PluginScan pluginName emit db st rec =
        .ok (storeResult pluginName cached st, db, [])) ∧
    (lookupA db rec.commit.hash = none →
      PluginScan pluginName emit db st rec =
        .ok (storeResult pluginName (emit ⟨rec, st.data⟩) st,
             StoreCache db rec.commit.hash (emit ⟨rec, st.data⟩), [⟨rec, st.data⟩]) ∧
      lookupA (StoreCache db rec.commit.hash (emit ⟨rec, st.data⟩)) rec.commit.hash
        = some (.resp (emit ⟨rec, st.data⟩))) ∧
    (∀ e, lookupA db rec.commit.hash = some (.ioFail e) →
      PluginScan pluginName emit db st rec = .error e) ∧
    (∀ k, GetCache db k = .ok none ↔ lookupA db k = none) := by
  refine ⟨?_, ?_, ?_, ?_⟩
  · intro cached hc
    rw [PluginScan, GetCache, hc]
  · intro hc
    refine ⟨?_, ?_⟩
    · rw [PluginScan, GetCache, hc]
    · exact lookupA_setA_self db rec.commit.hash _
  · intro e hc
    rw [PluginScan, GetCache, hc]
  · intro k
    rw [GetCache]
    cases h : lookupA db k with
    | none => simp
    | some v => cases v <;> simp

/-- Witness for C5 at a concrete cache: a hit on hash `"h1"` returns the
cached envelope without an RPC, a miss on `"h2"` issues one RPC and
caches its result, and a poisoned key `"h3"` propagates its error. -/
theorem c5_plugin_scan_cache_witness :
    PluginScan "size" (fun _ => ⟨"R", ⟨"", []⟩, ""⟩)
        [("h1", .resp ⟨"C", ⟨"", []⟩, ""⟩), ("h3", .ioFail "disk")]
        ⟨[], []⟩ ⟨⟨"h1", 1, [], ⟨"t", []⟩⟩, ⟨"t", []⟩, []⟩ =
      .ok (storeResult "size" ⟨"C", ⟨"", []⟩, ""⟩ ⟨[], []⟩,
           [("h1", .resp ⟨"C", ⟨"", []⟩, ""⟩), ("h3", .ioFail "disk")], []) ∧
    PluginScan "size" (fun _ => ⟨"R", ⟨"", []⟩, ""⟩)
        [("h1", .resp ⟨"C", ⟨"", []⟩, ""⟩), ("h3", .ioFail "disk")]
        ⟨[], []⟩ ⟨⟨"h3", 3, [], ⟨"t", []⟩⟩, ⟨"t", []⟩, []⟩ = .error "disk" := by
  obtain ⟨h1, -, -, -⟩ := c5_plugin_scan_cache "size" (fun _ => ⟨"R", ⟨"", []⟩, ""⟩)
    [("h1", .resp ⟨"C", ⟨"", []⟩, ""⟩), ("h3", .ioFail "disk")]
    ⟨[], []⟩ ⟨⟨"h1", 1, [], ⟨"t", []⟩⟩, ⟨"t", []⟩, []⟩
  obtain ⟨-, -, h3, -⟩ := c5_plugin_scan_cache "size" (fun _ => ⟨"R", ⟨"", []⟩, ""⟩)
    [("h1", .resp ⟨"C", ⟨"", []⟩, ""⟩), ("h3", .ioFail "disk")]
    ⟨[], []⟩ ⟨⟨"h3", 3, [], ⟨"t", []⟩⟩, ⟨"t", []⟩, []⟩
  exact ⟨h1 _ rfl, h3 "disk" rfl⟩

/-! # Claim C6: `HeadOnly` and the empty repository -/

theorem chain_desc_head_max :
    ∀ (c : GitCommit) (rest : List GitCommit),
      List.Chain' (fun a b => b.committerTime ≤ a.committerTime) (c :: rest) →
      ∀ d ∈ c :: rest, d.committerTime ≤ c.committerTime
  | _, [], _, d, hd => by
    rcases List.mem_singleton.1 hd with rfl
    exact Nat.le_refl _
  | c, e :: rest, h, d, hd => by
    rcases List.chain'_cons.1 h with ⟨hce, h'⟩
    rcases List.mem_cons.1 hd with rfl | hd'
    · exact Nat.le_refl _
    · exact Nat.le_trans (chain_desc_head_max e rest h' d hd') hce

/-- C6: for a repository with at least one commit, `HeadOnly` invokes the
callback exactly once, with a context for the newest commit in
committer-time order and an empty changes list; for a repository with no
commits, `HeadOnly` and `AllCommits` invoke the callback zero times and
return without error. -/
theorem c6_head_only (r : GitRepo) (diff : Tree → Tree → List ChangeM) :
    (r.log = [] → HeadOnlyRun r = .ok [] ∧ AllCommits diff r = .ok []) ∧
    (∀ c rest, r.log = c :: rest →
      List.Chain' (fun a b => b.committerTime ≤ a.committerTime) r.log →
      HeadOnlyRun r = .ok [{ commit := c, snapshot := toSnapshot c.tree, changes := [] }] ∧
      ∀ d ∈ r.log, d.committerTime ≤ c.committerTime) := by
  constructor
  · intro h
    constructor
    · rw [HeadOnlyRun, h]
    · rw [AllCommits, h]
      rfl
  · intro c rest hlog hchain
    constructor
    · rw [HeadOnlyRun, hlog]
    · rw [hlog]
      exact chain_desc_head_max c rest (hlog ▸ hchain)

/-- Witness for C6: over the concrete three-commit repository `HeadOnly`
fires once for the newest commit `c2` with no changes, and over the empty
repository both traversals fire zero callbacks without error. -/
theorem c6_head_only_witness :
    HeadOnlyRun chainRepo =
      .ok [{ commit := commitC2, snapshot := toSnapshot commitC2.tree, changes := [] }] ∧
    HeadOnlyRun emptyRepo = .ok [] ∧ AllCommits diffNil emptyRepo = .ok [] := by
  obtain ⟨-, hcons⟩ := c6_head_only chainRepo diffNil
  obtain ⟨hempty, -⟩ := c6_head_only emptyRepo diffNil
  obtain ⟨h1, -⟩ := hcons commitC2 [commitC1, commitC0] rfl
    (List.chain'_cons.2 ⟨by decide, List.chain'_cons.2 ⟨by decide, List.chain'_singleton _⟩⟩)
  obtain ⟨h2, h3⟩ := hempty rfl
  exact ⟨h1, h2, h3⟩

/-! # Claim C2: `AllCommits` over a linear history -/

theorem replay_some_eq (diff : Tree → Tree → List ChangeM) (r : GitRepo) :
    ∀ (t : Tree) (cs : List GitCommit),
      replay diff r (some t) cs = .ok (replayPure diff t cs)
  | _, [] => rfl
  | t, c :: rest => by
    rw [replay, replayPure]
    simp [replay_some_eq diff r c.tree rest]

theorem replayPure_map_commit (diff : Tree → Tree → List ChangeM) :
    ∀ (t : Tree) (cs : List GitCommit),
      (replayPure diff t cs).map CBRec.commit = cs
  | _, [] => rfl
  | t, c :: rest => by
    rw [replayPure, List.map_cons, replayPure_map_commit diff c.tree rest]

theorem replayPure_length (diff : Tree → Tree → List ChangeM) :
    ∀ (t : Tree) (cs : List GitCommit),
      (replayPure diff t cs).length = cs.length
  | _, [] => rfl
  | t, c :: rest => by
    rw [replayPure, List.length_cons, replayPure_length diff c.tree rest]
    rfl

theorem replayPure_chain_changes (diff : Tree → Tree → List ChangeM) :
    ∀ (t : Tree) (cs : List GitCommit),
      List.Chain' (fun a b => b.changes = diff a.commit.tree b.commit.tree)
        (replayPure diff t cs)
  | _, [] => List.chain'_nil
  | t, [c] => by simp [replayPure]
  | t, c :: c' :: rest => by
    rw [replayPure]
    refine List.chain'_cons.2 ⟨rfl, ?_⟩
    exact replayPure_chain_changes diff c.tree (c' :: rest)

/-- C2 counterexample: over the linear three-commit history reachable
from HEAD (`c0 ← c1 ← c2`, log newest first), `AllCommits` does not fire
`N−1 = 2` callbacks: it replays oldest-first *skipping the newest* commit
`c2`, and fails with the parent iterator's EOF at the parentless oldest
commit `c0`, before any callback. -/
theorem c2_counterexample :
    AllCommits diffNil chainRepo = .error "EOF" ∧ chainRepo.log.length = 3 :=
  ⟨rfl, rfl⟩

/-- C2 (amended): `AllCommits` materializes the committer-time-ordered
log (newest first) and replays the entries at indices `N−1 … 1`, oldest
to newest, skipping the *newest* commit; the first replayed commit is the
*oldest* logged one, diffed against its first parent's tree — so over a
full linear history, whose oldest commit has no parent, the traversal
fails before any callback — and when that first parent does resolve,
exactly `N−1` callbacks fire, their committer times strictly increasing,
each later commit diffed against the previously replayed commit's
tree. -/
theorem c2_all_commits (diff : Tree → Tree → List ChangeM) (r : GitRepo)
    (c : GitCommit) (rest : List GitCommit)
    (hlog : r.log = c :: rest)
    (hdesc : List.Chain' (fun a b => b.committerTime < a.committerTime) r.log) :
    (∀ o os, rest.reverse = o :: os → o.parentHashes = [] →
      (AllCommits diff r).toOption = none) ∧
    (∀ o os t0, rest.reverse = o :: os → firstTree r o = .ok t0 →
      AllCommits diff r = .ok (replayPure diff t0 (o :: os)) ∧
      replayPure diff t0 (o :: os) =
        { commit := o, snapshot := toSnapshot o.tree, changes := diff t0 o.tree }
          :: replayPure diff o.tree os ∧
      (replayPure diff t0 (o :: os)).map CBRec.commit = rest.reverse ∧
      (replayPure diff t0 (o :: os)).length = r.log.length - 1 ∧
      List.Chain' (fun a b => a.commit.committerTime < b.commit.committerTime)
        (replayPure diff t0 (o :: os)) ∧
      List.Chain' (fun a b => b.changes = diff a.commit.tree b.commit.tree)
        (replayPure diff t0 (o :: os))) := by
  have hproc : (r.log.drop 1).reverse = rest.reverse := by rw [hlog]; rfl
  constructor
  · intro o os ho hpar
    have hft : firstTree r o = .error "EOF" := by rw [firstTree, hpar]
    rw [AllCommits, hproc, ho, replay, hft]
    rfl
  · intro o os t0 ho hft
    have hrun : AllCommits diff r = .ok (replayPure diff t0 (o :: os)) := by
      rw [AllCommits, hproc, ho, replay, hft, replay_some_eq]
      rfl
    refine ⟨hrun, rfl, ?_, ?_, ?_, replayPure_chain_changes diff t0 (o :: os)⟩
    · rw [replayPure_map_commit, ho]
    · rw [replayPure_length, hlog, ← ho]
      simp
    · have htail : List.Chain' (fun a b => b.committerTime < a.committerTime) rest :=
        (hlog ▸ hdesc).tail
      have hrev : List.Chain' (fun a b => a.committerTime < b.committerTime) rest.reverse := by
        rw [List.chain'_reverse]
        exact htail
      have hmap := replayPure_map_commit diff t0 (o :: os)
      have hmapped : List.Chain' (fun a b => a.committerTime < b.committerTime)
          ((replayPure diff t0 (o :: os)).map CBRec.commit) := by
        rw [hmap, ← ho]
        exact hrev
      exact (List.chain'_map CBRec.commit).1 hmapped

/-- Witness for C2: over the concrete two-entry log whose oldest entry
`c1` has resolvable first parent `c0`, `AllCommits` fires exactly
`N−1 = 1` callback, replaying `c1` against `c0`'s tree. -/
theorem c2_all_commits_witness :
    AllCommits diffNil basedRepo = .ok (replayPure diffNil treeT0 [commitC1]) ∧
    (replayPure diffNil treeT0 [commitC1]).length = basedRepo.log.length - 1 := by
  obtain ⟨-, hpos⟩ := c2_all_commits diffNil basedRepo commitC2 [commitC1] rfl
    (List.chain'_cons.2 ⟨by decide, List.chain'_singleton _⟩)
  obtain ⟨h1, -, -, h4, -, -⟩ := hpos commitC1 [] treeT0 rfl rfl
  exact ⟨h1, h4⟩

/-! # Claim C1: typed-data sharing across analyzers -/

theorem lookupA_mem {α : Type} :
    ∀ (l : List (String × α)) (k : String) (v : α),
      lookupA l k = some v → (k, v) ∈ l
  | [], _, _, h => by simp [lookupA] at h
  | (k', v') :: rest, k, v, h => by
    rw [lookupA] at h
    by_cases hk : k' = k
    · rw [if_pos hk] at h
      obtain rfl := Option.some.inj h
      subst hk
      exact List.mem_cons_self _ _
    · rw [if_neg hk] at h
      exact List.mem_cons_of_mem _ (lookupA_mem rest k v h)

theorem mem_setA {α : Type} :
    ∀ (l : List (String × α)) (k : String) (v : α) (p : String × α),
      p ∈ setA l k v → p ∈ l ∨ p = (k, v)
  | [], k, v, p, h => by
    rw [setA] at h
    exact Or.inr (List.mem_singleton.1 h)
  | (k', v') :: rest, k, v, p, h => by
    rw [setA] at h
    by_cases hk : k' = k
    · rw [if_pos hk] at h
      rcases List.mem_cons.1 h with rfl | h'
      · exact Or.inr (by rw [hk])
      · exact Or.inl (List.mem_cons_of_mem _ h')
    · rw [if_neg hk] at h
      rcases List.mem_cons.1 h with rfl | h'
      · exact Or.inl (List.mem_cons_self _ _)
      · rcases mem_setA rest k v p h' with h'' | h''
        · exact Or.inl (List.mem_cons_of_mem _ h'')
        · exact Or.inr h''

theorem dbAvoids_setA (tn : String) (db : CacheDB) (k : String) (resp : ScanResponse)
    (hdb : dbAvoids tn db) (hname : resp.name ≠ tn) :
    dbAvoids tn (setA db k (.resp resp)) := by
  intro p hp r hr
  rcases mem_setA db k (.resp resp) p hp with h | h
  · exact hdb p h r hr
  · subst h
    obtain rfl := CacheVal.resp.inj hr
    exact hname

theorem storeResult_data_avoids (pn tn : String) (resp : ScanResponse) (st : CtxSt)
    (hname : resp.name ≠ tn) (hst : lookupA st.data tn = none) :
    lookupA (storeResult pn resp st).data tn = none := by
  show lookupA (setA st.data resp.name resp) tn = none
  rw [lookupA_setA_ne _ _ _ _ hname]
  exact hst

theorem PluginScan_avoids (pn : String) (emit : SentCtx → ScanResponse) (tn : String)
    (hemit : ∀ ctx, (emit ctx).name ≠ tn)
    (db : CacheDB) (st : CtxSt) (rec : CBRec)
    (hdb : dbAvoids tn db) (hst : lookupA st.data tn = none) :
    ∀ st1 db1 sent1, PluginScan pn emit db st rec = .ok (st1, db1, sent1) →
      (∀ ctx ∈ sent1, lookupA ctx.data tn = none) ∧
      dbAvoids tn db1 ∧ lookupA st1.data tn = none := by
  intro st1 db1 sent1 h
  rw [PluginScan] at h
  rw [GetCache] at h
  cases hl : lookupA db rec.commit.hash with
  | none =>
    rw [hl] at h
    simp only [Except.ok.injEq, Prod.mk.injEq] at h
    obtain ⟨rfl, rfl, rfl⟩ := h
    refine ⟨?_, ?_, ?_⟩
    · intro ctx hctx
      rw [List.mem_singleton.1 hctx]
      exact hst
    · exact dbAvoids_setA tn db _ _ hdb (hemit _)
    · exact storeResult_data_avoids pn tn _ st (hemit _) hst
  | some v =>
    cases v with
    | resp cached =>
      rw [hl] at h
      simp only [Except.ok.injEq, Prod.mk.injEq] at h
      obtain ⟨rfl, rfl, rfl⟩ := h
      have hname : cached.name ≠ tn :=
        hdb _ (lookupA_mem db _ _ hl) cached rfl
      refine ⟨by simp, hdb, storeResult_data_avoids pn tn _ st hname hst⟩
    | ioFail e =>
      rw [hl] at h
      exact absurd h (by simp)

theorem runTraversal_avoids (pn : String) (emit : SentCtx → ScanResponse) (tn : String)
    (hemit : ∀ ctx, (emit ctx).name ≠ tn) :
    ∀ (revs : List CBRec) (db : CacheDB) (st : CtxSt),
      dbAvoids tn db → lookupA st.data tn = none →
      ∀ stF dbF sents, runTraversal pn emit db st revs = .ok (stF, dbF, sents) →
        (∀ ctx ∈ sents, lookupA ctx.data tn = none) ∧
        dbAvoids tn dbF ∧ lookupA stF.data tn = none
  | [], db, st, hdb, hst, stF, dbF, sents, hrun => by
    rw [runTraversal] at hrun
    simp only [Except.ok.injEq, Prod.mk.injEq] at hrun
    obtain ⟨rfl, rfl, rfl⟩ := hrun
    exact ⟨by simp, hdb, hst⟩
  | rec :: rest, db, st, hdb, hst, stF, dbF, sents, hrun => by
    rw [runTraversal] at hrun
    cases hps : PluginScan pn emit db st rec with
    | error e =>
      rw [hps] at hrun
      simp at hrun
    | ok trip =>
      obtain ⟨st1, db1, sent1⟩ := trip
      rw [hps] at hrun
      dsimp only at hrun
      obtain ⟨hsent1, hdb1, hst1⟩ :=
        PluginScan_avoids pn emit tn hemit db st rec hdb hst st1 db1 sent1 hps
      cases hrt : runTraversal pn emit db1 st1 rest with
      | error e =>
        rw [hrt] at hrun
        simp at hrun
      | ok trip2 =>
        obtain ⟨st2, db2, sents2⟩ := trip2
        rw [hrt] at hrun
        dsimp only at hrun
        simp only [Except.ok.injEq, Prod.mk.injEq] at hrun
        obtain ⟨rfl, rfl, rfl⟩ := hrun
        obtain ⟨hsents2, hdb2, hst2⟩ :=
          runTraversal_avoids pn emit tn hemit rest db1 st1 hdb1 hst1 st2 db2 sents2 hrt
        refine ⟨?_, hdb2, hst2⟩
        intro ctx hctx
        rcases List.mem_append.1 hctx with h | h
        · exact hsent1 ctx h
        · exact hsents2 ctx h

theorem runStepPlugins_avoids (env : AnalyzerEnv) (revs : List CBRec) (tn b : String)
    (hemit : ∀ ctx, (env b ctx).name ≠ tn) :
    ∀ (names : List String) (caches : Caches),
      dbAvoids tn ((lookupA caches b).getD []) →
      ∀ cachesF slog, runStepPlugins env revs caches names = .ok (cachesF, slog) →
        dbAvoids tn ((lookupA cachesF b).getD []) ∧
        ∀ p ∈ slog, p.1 = b → ∀ ctx ∈ p.2, lookupA ctx.data tn = none
  | [], caches, hdb, cachesF, slog, hrun => by
    rw [runStepPlugins] at hrun
    simp only [Except.ok.injEq, Prod.mk.injEq] at hrun
    obtain ⟨rfl, rfl⟩ := hrun
    exact ⟨hdb, by simp⟩
  | name :: rest, caches, hdb, cachesF, slog, hrun => by
    rw [runStepPlugins] at hrun
    cases hrt : runTraversal name (env name) ((lookupA caches name).getD []) ⟨[], []⟩ revs with
    | error e =>
      rw [hrt] at hrun
      simp at hrun
    | ok trip =>
      obtain ⟨st1, db1, sent1⟩ := trip
      rw [hrt] at hrun
      dsimp only at hrun
      cases hrr : runStepPlugins env revs (setA caches name db1) rest with
      | error e =>
        rw [hrr] at hrun
        simp at hrun
      | ok pair =>
        obtain ⟨caches2, slog2⟩ := pair
        rw [hrr] at hrun
        dsimp only at hrun
        simp only [Except.ok.injEq, Prod.mk.injEq] at hrun
        obtain ⟨rfl, rfl⟩ := hrun
        by_cases hb : name = b
        · subst hb
          obtain ⟨hsent1, hdb1, -⟩ :=
            runTraversal_avoids name (env name) tn hemit revs
              ((lookupA caches name).getD []) ⟨[], []⟩ hdb rfl st1 db1 sent1 hrt
          have hdb' : dbAvoids tn ((lookupA (setA caches name db1) name).getD []) := by
            rw [lookupA_setA_self]
            exact hdb1
          obtain ⟨hF, hlog2⟩ :=
            runStepPlugins_avoids env revs tn name hemit rest (setA caches name db1)
              hdb' caches2 slog2 hrr
          refine ⟨hF, ?_⟩
          intro p hp hpb ctx hctx
          rcases List.mem_cons.1 hp with rfl | hp'
          · exact hsent1 ctx hctx
          · exact hlog2 p hp' hpb ctx hctx
        · have hdb' : dbAvoids tn ((lookupA (setA caches name db1) b).getD []) := by
            rw [lookupA_setA_ne _ _ _ _ hb]
            exact hdb
          obtain ⟨hF, hlog2⟩ :=
            runStepPlugins_avoids env revs tn b hemit rest (setA caches name db1)
              hdb' caches2 slog2 hrr
          refine ⟨hF, ?_⟩
          intro p hp hpb ctx hctx
          rcases List.mem_cons.1 hp with rfl | hp'
          · exact absurd hpb hb
          · exact hlog2 p hp' hpb ctx hctx

theorem runSteps_avoids (env : AnalyzerEnv) (revs : List CBRec) (tn b : String)
    (hemit : ∀ ctx, (env b ctx).name ≠ tn) :
    ∀ (steps : List (List String)) (caches : Caches),
      dbAvoids tn ((lookupA caches b).getD []) →
      ∀ cachesF logs, runSteps env revs caches steps = .ok (cachesF, logs) →
        ∀ slog ∈ logs, ∀ p ∈ slog, p.1 = b →
          ∀ ctx ∈ p.2, lookupA ctx.data tn = none
  | [], caches, hdb, cachesF, logs, hrun => by
    rw [runSteps] at hrun
    simp only [Except.ok.injEq, Prod.mk.injEq] at hrun
    obtain ⟨rfl, rfl⟩ := hrun
    simp
  | names :: rest, caches, hdb, cachesF, logs, hrun => by
    rw [runSteps] at hrun
    cases hsp : runStepPlugins env revs caches names with
    | error e =>
      rw [hsp] at hrun
      simp at hrun
    | ok pair =>
      obtain ⟨caches1, slog1⟩ := pair
      rw [hsp] at hrun
      dsimp only at hrun
      cases hrr : runSteps env revs caches1 rest with
      | error e =>
        rw [hrr] at hrun
        simp at hrun
      | ok pair2 =>
        obtain ⟨caches2, logs2⟩ := pair2
        rw [hrr] at hrun
        dsimp only at hrun
        simp only [Except.ok.injEq, Prod.mk.injEq] at hrun
        obtain ⟨rfl, rfl⟩ := hrun
        obtain ⟨hdb1, hslog1⟩ :=
          runStepPlugins_avoids env revs tn b hemit names caches hdb caches1 slog1 hsp
        intro slog hslog p hp hpb ctx hctx
        rcases List.mem_cons.1 hslog with rfl | hslog'
        · exact hslog1 p hp hpb ctx hctx
        · exact runSteps_avoids env revs tn b hemit rest caches1 hdb1 caches2 logs2 hrr
            slog hslog' p hp hpb ctx hctx

/-- C1 counterexample: one revision, analyzer `A` in step 0 emitting
`SizeData{size:100}`, analyzer `B` in step 1.  In the full run the only
context serialized to `B` carries an empty typed-data map — each analyzer
task runs its own traversal, which builds a fresh `ScanContext` — so
`B`'s `GetData` on `SizeData` fails with `NoData` instead of observing
`size = 100`. -/
theorem c1_counterexample :
    (runSteps envAB [revHead] [] [["A"], ["B"]]).map Prod.snd =
      .ok [[("A", [⟨revHead, []⟩])], [("B", [⟨revHead, []⟩])]] ∧
    envAB "A" ⟨revHead, []⟩ = ⟨"SizeData", anypbNew ⟨"SizeData", [100]⟩, ""⟩ ∧
    GetData (SentCtx.mk revHead []).data "SizeData" = .error ErrNoData :=
  ⟨rfl, rfl, rfl⟩

/-- C1 (amended): the typed-data map is per-analyzer-traversal state: it
starts empty at the first revision of each (pipeline, repository, step,
analyzer) traversal and is reused across revisions only within that one
analyzer's traversal.  An analyzer `B` of a later step does not observe
values emitted by a different analyzer `A` of an earlier step: whenever
`B`'s own emissions and starting cache never carry a type name, every
context serialized to `B` anywhere in the step sequence lacks that name,
so `B`'s `GetData` on it fails with `NoData` — in particular for the type
`A` emits. -/
theorem c1_data_isolation (env : AnalyzerEnv) (revs : List CBRec)
    (steps : List (List String)) (caches : Caches) (b tn : String)
    (hemit : ∀ ctx, (env b ctx).name ≠ tn)
    (hdb : dbAvoids tn ((lookupA caches b).getD [])) :
    ∀ cachesF logs, runSteps env revs caches steps = .ok (cachesF, logs) →
      ∀ slog ∈ logs, ∀ p ∈ slog, p.1 = b →
        ∀ ctx ∈ p.2, GetData ctx.data tn = .error ErrNoData := by
  intro cachesF logs hrun slog hslog p hp hpb ctx hctx
  have hnone :=
    runSteps_avoids env revs tn b hemit steps caches hdb cachesF logs hrun
      slog hslog p hp hpb ctx hctx
  rw [GetData, hnone]

/-- Witness for C1 at the concrete two-step pipeline: applying the
theorem to the run with `A` in step 0 and `B` in step 1 shows the context
`B` receives fails `GetData` on `SizeData`. -/
theorem c1_data_isolation_witness :
    GetData (SentCtx.mk revHead []).data "SizeData" = Except.error ErrNoData := by
  have hemit : ∀ ctx, (envAB "B" ctx).name ≠ "SizeData" := by
    intro ctx
    simp [envAB, emitOther, respOther]
  have h := c1_data_isolation envAB [revHead] [["A"], ["B"]] [] "B" "SizeData"
    hemit (by simp [dbAvoids, lookupA])
    [("A", [("c2", CacheVal.resp respSize)]), ("B", [("c2", CacheVal.resp respOther)])]
    [[("A", [⟨revHead, []⟩])], [("B", [⟨revHead, []⟩])]] rfl
  exact h [("B", [⟨revHead, []⟩])] (by simp) ("B", [⟨revHead, []⟩]) (by simp) rfl
    ⟨revHead, []⟩ (by simp)

/-! # Plan-builder lemmas (claims C3, C4, C9) -/

theorem lookupA_setPluginPath :
    ∀ (env : Env) (k p n : String),
      lookupA (setPluginPath env k p) n =
        (lookupA env n).map (fun q => if k = n then { q with cachePath := p } else q)
  | [], _, _, _ => rfl
  | (k', v') :: rest, k, p, n => by
    by_cases hk : k' = k
    · by_cases hn : k' = n
      · have hkn : k = n := by rw [← hk, hn]
        rw [setPluginPath, if_pos hk, lookupA, if_pos hn, lookupA, if_pos hn]
        simp [hkn]
      · rw [setPluginPath, if_pos hk, lookupA, if_neg hn, lookupA, if_neg hn]
        exact lookupA_setPluginPath rest k p n
    · by_cases hn : k' = n
      · have hkn : ¬ k = n := by
          intro hh
          exact hk (by rw [hn, ← hh])
        rw [setPluginPath, if_neg hk, lookupA, if_pos hn, lookupA, if_pos hn]
        simp [hkn]
      · rw [setPluginPath, if_neg hk, lookupA, if_neg hn, lookupA, if_neg hn]
        exact lookupA_setPluginPath rest k p n

theorem pluginCore_setPluginPath (env : Env) (k p n : String) :
    pluginCore (setPluginPath env k p) n = pluginCore env n := by
  rw [pluginCore, pluginCore, lookupA_setPluginPath]
  cases lookupA env n with
  | none => rfl
  | some q => by_cases hk : k = n <;> simp [hk]

theorem pluginRepoID_eq_of_core {env env' : Env} {n : String}
    (h : pluginCore env n = pluginCore env' n) :
    pluginRepoID env n = pluginRepoID env' n := by
  rw [pluginRepoID, pluginRepoID]
  rw [pluginCore, pluginCore] at h
  cases he : lookupA env n <;> cases he' : lookupA env' n <;>
    rw [he, he'] at h <;> simp_all

theorem pluginGet_mtime_of_core {env env' : Env} {n : String}
    (h : pluginCore env n = pluginCore env' n) :
    (pluginGet env n).mtime = (pluginGet env' n).mtime := by
  rw [pluginGet, pluginGet]
  rw [pluginCore, pluginCore] at h
  cases he : lookupA env n <;> cases he' : lookupA env' n <;>
    rw [he, he'] at h <;> simp_all

theorem setStepPluginPaths_cons (sc : String) (env : Env) (nm : String) (rest : List String) :
    setStepPluginPaths sc env (nm :: rest) =
      setStepPluginPaths sc (setPluginPath env nm (pathJoin sc (pluginRepoID env nm))) rest := rfl

theorem pluginCore_setStepPluginPaths :
    ∀ (names : List String) (sc : String) (env : Env) (n : String),
      pluginCore (setStepPluginPaths sc env names) n = pluginCore env n
  | [], _, _, _ => rfl
  | nm :: rest, sc, env, n => by
    rw [setStepPluginPaths_cons, pluginCore_setStepPluginPaths rest, pluginCore_setPluginPath]

theorem setStepPluginPaths_not_mem :
    ∀ (names : List String) (sc : String) (env : Env) (n : String),
      n ∉ names → lookupA (setStepPluginPaths sc env names) n = lookupA env n
  | [], _, _, _, _ => rfl
  | nm :: rest, sc, env, n, h => by
    have hnm : nm ≠ n := fun hh => h (hh ▸ List.mem_cons_self nm rest)
    rw [setStepPluginPaths_cons,
      setStepPluginPaths_not_mem rest sc _ n (fun hh => h (List.mem_cons_of_mem nm hh)),
      lookupA_setPluginPath]
    cases lookupA env n with
    | none => rfl
    | some q => simp [hnm]

theorem setStepPluginPaths_mem :
    ∀ (names : List String) (sc : String) (env : Env) (n : String) (p : PluginObj),
      n ∈ names → lookupA env n = some p →
      lookupA (setStepPluginPaths sc env names) n =
        some ⟨p.repoID, p.mtime, pathJoin sc p.repoID⟩
  | [], _, _, _, _, h, _ => absurd h (List.not_mem_nil _)
  | nm :: rest, sc, env, n, p, h, hp => by
    rw [setStepPluginPaths_cons]
    by_cases hnm : nm = n
    · subst hnm
      have hrid : pluginRepoID env nm = p.repoID := by rw [pluginRepoID, hp]; rfl
      have h1 : lookupA (setPluginPath env nm (pathJoin sc (pluginRepoID env nm))) nm =
          some ⟨p.repoID, p.mtime, pathJoin sc p.repoID⟩ := by
        rw [lookupA_setPluginPath, hp, hrid]
        simp
      by_cases hr : nm ∈ rest
      · rw [setStepPluginPaths_mem rest sc _ nm _ hr h1]
      · rw [setStepPluginPaths_not_mem rest sc _ nm hr, h1]
    · have hr : n ∈ rest := by
        rcases List.mem_cons.1 h with hh | hh
        · exact absurd hh.symm hnm
        · exact hh
      have h1 : lookupA (setPluginPath env nm (pathJoin sc (pluginRepoID env nm))) n = some p := by
        rw [lookupA_setPluginPath, hp]
        simp [hnm]
      exact setStepPluginPaths_mem rest sc _ n p hr h1

theorem propagateStep_fst (rc : String) (acc : Env × List StepObj) (s : StepObj) :
    (propagateStep rc acc s).1 = setStepPluginPaths (pathJoin rc (pad3 s.idx)) acc.1 s.names := rfl

theorem stepsFold_core :
    ∀ (steps : List StepObj) (rc : String) (acc : Env × List StepObj) (n : String),
      pluginCore ((steps.foldl (propagateStep rc) acc).1) n = pluginCore acc.1 n
  | [], _, _, _ => rfl
  | s :: rest, rc, acc, n => by
    rw [List.foldl_cons, stepsFold_core rest rc _ n, propagateStep_fst,
      pluginCore_setStepPluginPaths]

theorem stepsFold_not_mem :
    ∀ (steps : List StepObj) (rc : String) (acc : Env × List StepObj) (n : String),
      (∀ s ∈ steps, n ∉ s.names) →
      lookupA ((steps.foldl (propagateStep rc) acc).1) n = lookupA acc.1 n
  | [], _, _, _, _ => rfl
  | s :: rest, rc, acc, n, h => by
    rw [List.foldl_cons,
      stepsFold_not_mem rest rc _ n (fun s' hs' => h s' (List.mem_cons_of_mem s hs')),
      propagateStep_fst, setStepPluginPaths_not_mem _ _ _ _ (h s (List.mem_cons_self s rest))]

theorem stepsFold_final (pre : List StepObj) (s : StepObj) (post : List StepObj)
    (rc : String) (acc : Env × List StepObj) (n : String) (p : PluginObj)
    (hmem : n ∈ s.names) (hpost : ∀ s' ∈ post, n ∉ s'.names)
    (hp : lookupA acc.1 n = some p) :
    lookupA (((pre ++ s :: post).foldl (propagateStep rc) acc).1) n =
      some ⟨p.repoID, p.mtime, pathJoin (pathJoin rc (pad3 s.idx)) p.repoID⟩ := by
  rw [List.foldl_append]
  have hcore := stepsFold_core pre rc acc n
  rw [pluginCore, pluginCore, hp] at hcore
  cases he : lookupA ((pre.foldl (propagateStep rc) acc).1) n with
  | none => rw [he] at hcore; simp at hcore
  | some p' =>
    rw [he] at hcore
    simp only [Option.map_some', Option.some.injEq, Prod.mk.injEq] at hcore
    obtain ⟨hrid, hmt⟩ := hcore
    rw [List.foldl_cons, stepsFold_not_mem post rc _ n hpost, propagateStep_fst,
      setStepPluginPaths_mem s.names _ _ n p' hmem he, hrid, hmt]

theorem stepsFold_snd :
    ∀ (steps : List StepObj) (rc : String) (acc : Env × List StepObj),
      (steps.foldl (propagateStep rc) acc).2 =
        acc.2 ++ steps.map (fun s => { s with cachePath := pathJoin rc (pad3 s.idx) })
  | [], _, _ => by rw [List.foldl_nil, List.map_nil, List.append_nil]
  | s :: rest, rc, acc => by
    rw [List.foldl_cons, stepsFold_snd rest rc _, List.map_cons]
    have h2 : (propagateStep rc acc s).2 =
        acc.2 ++ [{ s with cachePath := pathJoin rc (pad3 s.idx) }] := rfl
    rw [h2, List.append_assoc]
    rfl

theorem propagateRepo_fst (pc : String) (acc : Env × List PRepo) (r : PRepo) :
    (propagateRepo pc acc r).1 =
      (r.steps.foldl (propagateStep (pathJoin pc r.rid)) (acc.1, [])).1 := rfl

theorem reposFold_core :
    ∀ (repos : List PRepo) (pc : String) (acc : Env × List PRepo) (n : String),
      pluginCore ((repos.foldl (propagateRepo pc) acc).1) n = pluginCore acc.1 n
  | [], _, _, _ => rfl
  | r :: rest, pc, acc, n => by
    rw [List.foldl_cons, reposFold_core rest pc _ n, propagateRepo_fst,
      stepsFold_core]

theorem reposFold_snd :
    ∀ (repos : List PRepo) (pc : String) (acc : Env × List PRepo),
      (repos.foldl (propagateRepo pc) acc).2 =
        acc.2 ++ repos.map (fun r =>
          { r with cachePath := pathJoin pc r.rid,
                   steps := r.steps.map (fun s =>
                     { s with cachePath := pathJoin (pathJoin pc r.rid) (pad3 s.idx) }) })
  | [], _, _ => by rw [List.foldl_nil, List.map_nil, List.append_nil]
  | r :: rest, pc, acc => by
    rw [List.foldl_cons, reposFold_snd rest pc _, List.map_cons]
    have h2 : (propagateRepo pc acc r).2 =
        acc.2 ++
          [{ r with
                cachePath := pathJoin pc r.rid,
                steps := (r.steps.foldl (propagateStep (pathJoin pc r.rid)) (acc.1, [])).2 }] := rfl
    rw [h2, stepsFold_snd, List.append_assoc]
    rfl

theorem reposFold_final (rpre : List PRepo) (rl : PRepo) (pc : String)
    (acc : Env × List PRepo) (n : String) (p : PluginObj)
    (spre : List StepObj) (s : StepObj) (spost : List StepObj)
    (hsteps : rl.steps = spre ++ s :: spost)
    (hmem : n ∈ s.names) (hpost : ∀ s' ∈ spost, n ∉ s'.names)
    (hp : lookupA acc.1 n = some p) :
    lookupA (((rpre ++ [rl]).foldl (propagateRepo pc) acc).1) n =
      some ⟨p.repoID, p.mtime,
        pathJoin (pathJoin (pathJoin pc rl.rid) (pad3 s.idx)) p.repoID⟩ := by
  rw [List.foldl_append]
  have hcore := reposFold_core rpre pc acc n
  rw [pluginCore, pluginCore, hp] at hcore
  cases he : lookupA ((rpre.foldl (propagateRepo pc) acc).1) n with
  | none => rw [he] at hcore; simp at hcore
  | some p' =>
    rw [he] at hcore
    simp only [Option.map_some', Option.some.injEq, Prod.mk.injEq] at hcore
    obtain ⟨hrid, hmt⟩ := hcore
    rw [List.foldl_cons, List.foldl_nil, propagateRepo_fst, hsteps,
      stepsFold_final spre s spost _ _ n p' hmem hpost he, hrid, hmt]

theorem buildRepoStepsFrom_append :
    ∀ (l1 l2 : List (List String)) (i : Nat),
      buildRepoStepsFrom i (l1 ++ l2) =
        buildRepoStepsFrom i l1 ++ buildRepoStepsFrom (i + l1.length) l2
  | [], l2, i => by simp [buildRepoStepsFrom]
  | names :: rest, l2, i => by
    rw [List.cons_append, buildRepoStepsFrom, buildRepoStepsFrom,
      buildRepoStepsFrom_append rest l2 (i + 1), List.cons_append, List.length_cons]
    have : i + 1 + rest.length = i + (rest.length + 1) := by omega
    rw [this]

theorem buildRepoStepsFrom_names :
    ∀ (l : List (List String)) (i : Nat) (s : StepObj),
      s ∈ buildRepoStepsFrom i l → s.names ∈ l
  | [], _, _, h => absurd h (List.not_mem_nil _)
  | names :: rest, i, s, h => by
    rw [buildRepoStepsFrom] at h
    rcases List.mem_cons.1 h with rfl | h'
    · exact List.mem_cons_self _ _
    · exact List.mem_cons_of_mem _ (buildRepoStepsFrom_names rest (i + 1) s h')

theorem buildRepoStepsFrom_flatMap :
    ∀ (l : List (List String)) (i : Nat) (f : List String → List String),
      (buildRepoStepsFrom i l).flatMap (fun s => f s.names) = l.flatMap f
  | [], _, _ => rfl
  | names :: rest, i, f => by
    rw [buildRepoStepsFrom, List.flatMap_cons, List.flatMap_cons,
      buildRepoStepsFrom_flatMap rest (i + 1) f]

theorem buildRepoStepsFrom_paths :
    ∀ (l : List (List String)) (i : Nat) (pc rid : String),
      (buildRepoStepsFrom i l).map
          (fun s => pathJoin (pathJoin pc rid) (pad3 s.idx)) =
        stepCachePathsFrom pc rid i l
  | [], _, _, _ => rfl
  | names :: rest, i, pc, rid => by
    rw [buildRepoStepsFrom, List.map_cons, buildRepoStepsFrom_paths rest (i + 1) pc rid,
      stepCachePathsFrom]
    rfl

theorem regUpdate_lookup_ne (reg : Registry) (a : String) (mt : Nat) (n : String)
    (h : n ≠ a) : lookupA (regUpdate reg a mt) n = lookupA reg n := by
  rw [regUpdate]
  cases lookupA reg a with
  | none => exact lookupA_setA_ne reg a n _ (fun hh => h hh.symm)
  | some e => exact lookupA_setA_ne reg a n _ (fun hh => h hh.symm)

theorem IsUpdated_congr_reg {reg reg' : Registry} {n : String} (p : PluginObj)
    (h : lookupA reg' n = lookupA reg n) :
    IsUpdated reg' n p = IsUpdated reg n p := by
  rw [IsUpdated, IsUpdated, h]

theorem IsUpdated_congr_mtime (reg : Registry) (n : String) {p p' : PluginObj}
    (h : p'.mtime = p.mtime) :
    IsUpdated reg n p' = IsUpdated reg n p := by
  rw [IsUpdated, IsUpdated, h]

theorem invalidatePlugins_clean (env : Env) :
    ∀ (names : List String) (flag : Bool) (reg : Registry) (del : List String),
      (∀ n ∈ names, IsUpdated reg n (pluginGet env n) = false) →
      invalidatePlugins env (flag, reg, del) names = (flag, reg, del)
  | [], _, _, _, _ => rfl
  | nm :: rest, flag, reg, del, h => by
    rw [invalidatePlugins] at *
    rw [List.foldl_cons]
    have hnm := h nm (List.mem_cons_self nm rest)
    simp only [hnm, Bool.false_eq_true, if_false]
    exact invalidatePlugins_clean env rest flag reg del
      (fun n hn => h n (List.mem_cons_of_mem nm hn))

theorem invalidatePlugins_hit (env : Env) (xs : List String) (a : String)
    (ys : List String) (reg : Registry) (del : List String)
    (hxs : ∀ n ∈ xs, IsUpdated reg n (pluginGet env n) = false)
    (ha : IsUpdated reg a (pluginGet env a) = true)
    (hys : ∀ n ∈ ys, n ≠ a ∧ IsUpdated reg n (pluginGet env n) = false) :
    invalidatePlugins env (false, reg, del) (xs ++ a :: ys) =
      (true, regUpdate reg a (pluginGet env a).mtime,
        del ++ [(pluginGet env a).cachePath]) := by
  rw [invalidatePlugins, List.foldl_append]
  rw [show List.foldl _ (false, reg, del) xs =
    invalidatePlugins env (false, reg, del) xs from rfl]
  rw [invalidatePlugins_clean env xs false reg del hxs, List.foldl_cons]
  simp only [ha, if_true]
  rw [show List.foldl _ _ ys = invalidatePlugins env
    (true, regUpdate reg a (pluginGet env a).mtime, del ++ [(pluginGet env a).cachePath]) ys
    from rfl]
  exact invalidatePlugins_clean env ys true _ _
    (fun n hn => by
      have hne := (hys n hn).1
      rw [IsUpdated_congr_reg (pluginGet env n) (regUpdate_lookup_ne reg a _ n hne)]
      exact (hys n hn).2)

theorem invalidateSteps_true (env : Env) :
    ∀ (steps : List StepObj) (reg : Registry) (del : List String),
      steps.foldl (invalidateStep env) (true, reg, del) =
        (true, reg, del ++ steps.map StepObj.cachePath)
  | [], _, _ => by simp
  | s :: rest, reg, del => by
    rw [List.foldl_cons]
    rw [show invalidateStep env (true, reg, del) s = (true, reg, del ++ [s.cachePath]) from rfl]
    rw [invalidateSteps_true env rest reg _, List.map_cons, List.append_assoc]
    rfl

theorem invalidateSteps_clean (env : Env) :
    ∀ (steps : List StepObj) (reg : Registry) (del : List String),
      (∀ s ∈ steps, ∀ n ∈ s.names, IsUpdated reg n (pluginGet env n) = false) →
      steps.foldl (invalidateStep env) (false, reg, del) = (false, reg, del)
  | [], _, _, _ => rfl
  | s :: rest, reg, del, h => by
    rw [List.foldl_cons]
    rw [show invalidateStep env (false, reg, del) s =
      invalidatePlugins env (false, reg, del) s.names from rfl]
    rw [invalidatePlugins_clean env s.names false reg del (h s (List.mem_cons_self s rest))]
    exact invalidateSteps_clean env rest reg del
      (fun s' hs' => h s' (List.mem_cons_of_mem s hs'))

theorem invalidateSteps_main (env : Env) (spreS : List StepObj) (sk : StepObj)
    (spostS : List StepObj) (xs : List String) (a : String) (ys : List String)
    (reg : Registry) (del : List String)
    (hnames : sk.names = xs ++ a :: ys)
    (hpre : ∀ s ∈ spreS, ∀ n ∈ s.names, IsUpdated reg n (pluginGet env n) = false)
    (hxs : ∀ n ∈ xs, IsUpdated reg n (pluginGet env n) = false)
    (ha : IsUpdated reg a (pluginGet env a) = true)
    (hys : ∀ n ∈ ys, n ≠ a ∧ IsUpdated reg n (pluginGet env n) = false) :
    (spreS ++ sk :: spostS).foldl (invalidateStep env) (false, reg, del) =
      (true, regUpdate reg a (pluginGet env a).mtime,
        del ++ [(pluginGet env a).cachePath] ++ spostS.map StepObj.cachePath) := by
  rw [List.foldl_append, invalidateSteps_clean env spreS reg del hpre, List.foldl_cons]
  rw [show invalidateStep env (false, reg, del) sk =
    invalidatePlugins env (false, reg, del) sk.names from rfl]
  rw [hnames, invalidatePlugins_hit env xs a ys reg del hxs ha hys,
    invalidateSteps_true env spostS _ _]

theorem createPipeline_ok (h : String → String) (rootCache : String) (env : Env)
    (reg : Registry) (deleted : List String) (cfg : PipelineCfg)
    (hres : allResolvable env cfg.steps = true) (hne : cfg.repos ≠ []) :
    createPipeline h rootCache env reg deleted cfg =
      .ok ⟨⟨createPipelineID h env cfg.strategy (buildRepoSteps cfg.steps),
            pipelineCachePathOf h rootCache env cfg,
            (propagatedOf h rootCache env cfg).2⟩,
           (propagatedOf h rootCache env cfg).1,
           (invalidatedOf h rootCache env reg deleted cfg).1,
           (invalidatedOf h rootCache env reg deleted cfg).2⟩ := by
  cases hr : cfg.repos with
  | nil => exact absurd hr hne
  | cons rid0 rrest =>
    have hb : buildPipelineRepos cfg =
        ⟨rid0, buildRepoSteps cfg.steps, ""⟩ ::
          rrest.map (fun rid => ⟨rid, buildRepoSteps cfg.steps, ""⟩) := by
      rw [buildPipelineRepos, hr, List.map_cons]
    rw [createPipeline, if_neg (by rw [hres]; exact fun hh => hh rfl)]
    rw [pipelineCachePathOf, propagatedOf, invalidatedOf, propagatedOf, pipelineCachePathOf]
    rw [hb]

theorem CreatePipelines_single (h : String → String) (rootCache : String) (env : Env)
    (reg : Registry) (cfg : PipelineCfg)
    (hres : allResolvable env cfg.steps = true) (hne : cfg.repos ≠ []) :
    CreatePipelines h rootCache env reg [cfg] =
      .ok ⟨[⟨createPipelineID h env cfg.strategy (buildRepoSteps cfg.steps),
             pipelineCachePathOf h rootCache env cfg,
             (propagatedOf h rootCache env cfg).2⟩],
           (propagatedOf h rootCache env cfg).1,
           (invalidatedOf h rootCache env reg [] cfg).1,
           (invalidatedOf h rootCache env reg [] cfg).2 ++ []⟩ := by
  rw [CreatePipelines, createPipeline_ok h rootCache env reg [] cfg hres hne]
  dsimp only
  rw [show CreatePipelines h rootCache (propagatedOf h rootCache env cfg).1
    (invalidatedOf h rootCache env reg [] cfg).1 [] =
      .ok ⟨[], (propagatedOf h rootCache env cfg).1,
        (invalidatedOf h rootCache env reg [] cfg).1, []⟩ from rfl]

theorem charListLe_total : ∀ as bs : List Char,
    charListLe as bs = true ∨ charListLe bs as = true
  | [], [] => Or.inl rfl
  | [], _ :: _ => Or.inl rfl
  | _ :: _, [] => Or.inr rfl
  | a :: as, b :: bs => by
    rcases lt_trichotomy a b with h | h | h
    · left
      rw [charListLe, if_pos h]
    · subst h
      rcases charListLe_total as bs with ih | ih
      · left
        rw [charListLe, if_neg (lt_irrefl a), if_neg (lt_irrefl a)]
        exact ih
      · right
        rw [charListLe, if_neg (lt_irrefl a), if_neg (lt_irrefl a)]
        exact ih
    · right
      rw [charListLe, if_pos h]

theorem charListLe_trans : ∀ as bs cs : List Char,
    charListLe as bs = true → charListLe bs cs = true → charListLe as cs = true
  | [], _, _, _, _ => rfl
  | _ :: _, [], _, h1, _ => by rw [charListLe] at h1; exact absurd h1 (by simp)
  | _ :: _, _ :: _, [], _, h2 => by rw [charListLe] at h2; exact absurd h2 (by simp)
  | a :: as, b :: bs, c :: cs, h1, h2 => by
    rw [charListLe] at h1 h2 ⊢
    by_cases hab : a < b
    · by_cases hbc : b < c
      · rw [if_pos (lt_trans hab hbc)]
      · by_cases hcb : c < b
        · rw [if_neg hbc, if_pos hcb] at h2
          exact absurd h2 (by simp)
        · have hbceq : b = c := le_antisymm (not_lt.1 hcb) (not_lt.1 hbc)
          rw [if_pos (hbceq ▸ hab)]
    · by_cases hba : b < a
      · rw [if_neg hab, if_pos hba] at h1
        exact absurd h1 (by simp)
      · have habeq : a = b := le_antisymm (not_lt.1 hba) (not_lt.1 hab)
        subst habeq
        rw [if_neg hab, if_neg hba] at h1
        by_cases hac : a < c
        · rw [if_pos hac]
        · by_cases hca : c < a
          · rw [if_neg hac, if_pos hca] at h2
            exact absurd h2 (by simp)
          · rw [if_neg hac, if_neg hca] at h2 ⊢
            exact charListLe_trans as bs cs h1 h2

theorem charListLe_not_lt : ∀ as bs : List Char,
    charListLe as bs = true → ¬ List.lt bs as
  | [], _, _, hlt => by cases hlt
  | _ :: _, [], h1, _ => by rw [charListLe] at h1; exact absurd h1 (by simp)
  | a :: as, b :: bs, h1, hlt => by
    rw [charListLe] at h1
    by_cases hab : a < b
    · cases hlt with
      | head _ _ hba => exact absurd hba (lt_asymm hab)
      | tail hba hab2 _ => exact absurd hab hab2
    · by_cases hba : b < a
      · rw [if_neg hab, if_pos hba] at h1
        exact absurd h1 (by simp)
      · rw [if_neg hab, if_neg hba] at h1
        cases hlt with
        | head _ _ hba2 => exact absurd hba2 hba
        | tail _ _ hlt2 => exact charListLe_not_lt as bs h1 hlt2

theorem strLe_le (a b : String) (h : strLe a b = true) : a ≤ b := by
  intro hlt
  rw [String.lt_iff_toList_lt] at hlt
  exact charListLe_not_lt a.data b.data h ((List.lt_iff_lex_lt _ _).2 hlt)

/-! # Claim C3: pipeline ID derivation -/

/-- C3: for every configuration (nonempty repository list, resolvable
analyzers), the pipeline ID is the hash of the string joining, with
single-colon delimiters, the strategy followed by the per-step analyzer
source-repo IDs taken from the first repository's step list, the IDs
within each step sorted lexicographically (a sorted permutation of the
step's IDs); and the ID depends only on the strategy, the step structure
and the analyzer source-repo IDs, so recomputing from the same
configuration on any run or host yields the same value. -/
theorem c3_pipeline_id (h : String → String) (rootCache : String) (env : Env)
    (reg : Registry) (deleted : List String) (cfg : PipelineCfg)
    (hne : cfg.repos ≠ []) (hres : allResolvable env cfg.steps = true) :
    ∀ res, createPipeline h rootCache env reg deleted cfg = .ok res →
      res.pipeline.id =
        h (String.intercalate ":" (cfg.strategy ::
          cfg.steps.flatMap (fun names => sortStrings (names.map (pluginRepoID env))))) ∧
      (∀ names : List String,
        List.Perm (stepPluginIDs env names) (names.map (pluginRepoID env)) ∧
        List.Sorted (· ≤ ·) (stepPluginIDs env names)) ∧
      (∀ (env2 : Env) (reg2 : Registry) (deleted2 : List String) res2,
        createPipeline h rootCache env2 reg2 deleted2 cfg = .ok res2 →
        (∀ n, pluginRepoID env2 n = pluginRepoID env n) →
        res2.pipeline.id = res.pipeline.id) := by
  intro res hok
  have hid : ∀ (e : Env), createPipelineID h e cfg.strategy (buildRepoSteps cfg.steps) =
      h (String.intercalate ":" (cfg.strategy ::
        cfg.steps.flatMap (fun names => sortStrings (names.map (pluginRepoID e))))) := by
    intro e
    rw [createPipelineID, buildRepoSteps,
      buildRepoStepsFrom_flatMap cfg.steps 0 (fun names => stepPluginIDs e names)]
    rfl
  rw [createPipeline_ok h rootCache env reg deleted cfg hres hne] at hok
  obtain rfl := (Except.ok.inj hok).symm
  refine ⟨hid env, ?_, ?_⟩
  · intro names
    haveI : IsTotal String (fun a b => strLe a b = true) :=
      ⟨fun a b => charListLe_total a.data b.data⟩
    haveI : IsTrans String (fun a b => strLe a b = true) :=
      ⟨fun a b c => charListLe_trans a.data b.data c.data⟩
    exact ⟨List.perm_insertionSort _ _,
      (List.sorted_insertionSort _ _).imp (fun hr => strLe_le _ _ hr)⟩
  · intro env2 reg2 deleted2 res2 hok2 heq
    by_cases hres2 : allResolvable env2 cfg.steps = true
    · rw [createPipeline_ok h rootCache env2 reg2 deleted2 cfg hres2 hne] at hok2
      obtain rfl := (Except.ok.inj hok2).symm
      show createPipelineID h env2 cfg.strategy (buildRepoSteps cfg.steps) =
        createPipelineID h env cfg.strategy (buildRepoSteps cfg.steps)
      rw [hid env2, hid env, funext heq]
    · rw [createPipeline, if_pos hres2] at hok2
      exact absurd hok2 (by simp)

/-- Witness for C3: with the identity stand-in for sha1, a single step
declaring analyzers `z` then `a` (source-repo IDs `Z` and `A`) yields the
ID string `allCommit:A:Z` — the IDs sorted within the step. -/
theorem c3_pipeline_id_witness :
    ∃ res, createPipeline (fun s => s) "root" envP regP [] cfgSortW = .ok res ∧
      res.pipeline.id = "allCommit:A:Z" := by
  have hok := createPipeline_ok (fun s => s) "root" envP regP [] cfgSortW rfl
    (by intro hh; exact absurd hh (by decide))
  refine ⟨_, hok, ?_⟩
  have happ := c3_pipeline_id (fun s => s) "root" envP regP [] cfgSortW
    (by intro hh; exact absurd hh (by decide)) rfl _ hok
  rw [happ.1]
  rfl

/-! # Claim C4: cache-invalidation cascade -/

/-- C4 (amended): during plan building, for each repository the
cache-invalidation pass visits steps in order with a downstream-delete
flag that starts false; while the flag is false an analyzer whose binary
mtime is strictly after the registry's recorded time (or that has no
record) has the directory held in its *shared* cache-path slot deleted,
its new version persisted and the flag set; while the flag is true every
subsequent step's cache directory is deleted.  For a pipeline with a
*single* repository where exactly one analyzer `a` (in step `k`, absent
from later steps) is updated, this deletes `a`'s per-step cache directory
and the step caches of steps `k+1 … n`, persists `a`'s new version,
leaves every other registry entry untouched, and deletes nothing else.
(With several repositories the shared slot holds the *last* repository's
directory when the first repository is processed — see the
counterexample — so the deletion is not confined to the repository being
visited.) -/
theorem c4_cache_invalidation (h : String → String) (rootCache : String) (env : Env)
    (reg : Registry) (cfg : PipelineCfg) (rid a : String) (pa : PluginObj)
    (spre spost : List (List String)) (xs ys : List String)
    (hrepos : cfg.repos = [rid])
    (hsteps : cfg.steps = spre ++ (xs ++ a :: ys) :: spost)
    (hres : allResolvable env cfg.steps = true)
    (hpa : lookupA env a = some pa)
    (hpre : ∀ names ∈ spre, ∀ n ∈ names, IsUpdated reg n (pluginGet env n) = false)
    (hxs : ∀ n ∈ xs, IsUpdated reg n (pluginGet env n) = false)
    (ha : IsUpdated reg a (pluginGet env a) = true)
    (hys : ∀ n ∈ ys, n ≠ a ∧ IsUpdated reg n (pluginGet env n) = false)
    (hapost : ∀ names ∈ spost, a ∉ names) :
    ∀ out, CreatePipelines h rootCache env reg [cfg] = .ok out →
      ∃ pl, out.pipelines = [pl] ∧
        out.deleted =
          analyzerCachePath pl.cachePath rid spre.length pa.repoID ::
            stepCachePathsFrom pl.cachePath rid (spre.length + 1) spost ∧
        out.registry = regUpdate reg a pa.mtime ∧
        (∀ n, n ≠ a → lookupA out.registry n = lookupA reg n) := by
  intro out hout
  have hne : cfg.repos ≠ [] := by rw [hrepos]; exact fun hh => List.noConfusion hh
  rw [CreatePipelines_single h rootCache env reg cfg hres hne] at hout
  obtain rfl := (Except.ok.inj hout).symm
  refine ⟨_, rfl, ?_⟩
  have hb1 : buildPipelineRepos cfg =
      [⟨rid, buildRepoSteps cfg.steps, ""⟩] := by
    rw [buildPipelineRepos, hrepos, List.map_cons, List.map_nil]
  have hbs : buildRepoSteps cfg.steps =
      buildRepoStepsFrom 0 spre ++
        (⟨spre.length, xs ++ a :: ys, ""⟩ ::
          buildRepoStepsFrom (spre.length + 1) spost) := by
    rw [buildRepoSteps, hsteps, buildRepoStepsFrom_append spre _ 0, buildRepoStepsFrom]
    rw [Nat.zero_add]
  -- the propagated environment and repository tree
  have hprop1 : (propagatedOf h rootCache env cfg).1 =
      (([] ++ [(⟨rid, buildRepoSteps cfg.steps, ""⟩ : PRepo)]).foldl
        (propagateRepo (pipelineCachePathOf h rootCache env cfg)) (env, [])).1 := by
    rw [propagatedOf, hb1, List.nil_append]
  have hmem : a ∈ (⟨spre.length, xs ++ a :: ys, ""⟩ : StepObj).names :=
    List.mem_append.2 (Or.inr (List.mem_cons_self a ys))
  have hpostS : ∀ s' ∈ buildRepoStepsFrom (spre.length + 1) spost, a ∉ s'.names :=
    fun s' hs' => hapost s'.names (buildRepoStepsFrom_names spost _ s' hs')
  have hfin : lookupA ((propagatedOf h rootCache env cfg).1) a =
      some ⟨pa.repoID, pa.mtime,
        pathJoin (pathJoin (pathJoin (pipelineCachePathOf h rootCache env cfg) rid)
          (pad3 spre.length)) pa.repoID⟩ := by
    rw [hprop1]
    exact reposFold_final [] ⟨rid, buildRepoSteps cfg.steps, ""⟩
      (pipelineCachePathOf h rootCache env cfg) (env, []) a pa
      (buildRepoStepsFrom 0 spre) ⟨spre.length, xs ++ a :: ys, ""⟩
      (buildRepoStepsFrom (spre.length + 1) spost) hbs hmem hpostS hpa
  have hget : pluginGet ((propagatedOf h rootCache env cfg).1) a =
      ⟨pa.repoID, pa.mtime,
        pathJoin (pathJoin (pathJoin (pipelineCachePathOf h rootCache env cfg) rid)
          (pad3 spre.length)) pa.repoID⟩ := by
    rw [pluginGet, hfin]
    rfl
  have hcore : ∀ n, pluginCore ((propagatedOf h rootCache env cfg).1) n = pluginCore env n := by
    intro n
    rw [propagatedOf]
    exact reposFold_core (buildPipelineRepos cfg) _ (env, []) n
  have htransfer : ∀ n,
      IsUpdated reg n (pluginGet ((propagatedOf h rootCache env cfg).1) n) =
        IsUpdated reg n (pluginGet env n) := by
    intro n
    exact IsUpdated_congr_mtime reg n (pluginGet_mtime_of_core (hcore n))
  have hprop2 : (propagatedOf h rootCache env cfg).2 =
      [{ rid := rid,
         steps := (buildRepoSteps cfg.steps).map (fun s =>
           { s with cachePath :=
               pathJoin (pathJoin (pipelineCachePathOf h rootCache env cfg) rid) (pad3 s.idx) }),
         cachePath := pathJoin (pipelineCachePathOf h rootCache env cfg) rid }] := by
    rw [propagatedOf, hb1, reposFold_snd, List.map_cons, List.map_nil, List.nil_append]
  have hinv : invalidatedOf h rootCache env reg [] cfg =
      (((buildRepoSteps cfg.steps).map (fun s =>
          { s with cachePath :=
              pathJoin (pathJoin (pipelineCachePathOf h rootCache env cfg) rid) (pad3 s.idx) })).foldl
        (invalidateStep ((propagatedOf h rootCache env cfg).1)) (false, reg, [])).2 := by
    rw [invalidatedOf, hprop2]
    rfl
  rw [hinv, hbs, List.map_append, List.map_cons]
  rw [invalidateSteps_main ((propagatedOf h rootCache env cfg).1)
    ((buildRepoStepsFrom 0 spre).map _) _ ((buildRepoStepsFrom (spre.length + 1) spost).map _)
    xs a ys reg [] rfl
    (fun s hs n hn => by
      rcases List.mem_map.1 hs with ⟨s0, hs0, rfl⟩
      rw [htransfer n]
      exact hpre s0.names (buildRepoStepsFrom_names spre 0 s0 hs0) n hn)
    (fun n hn => by rw [htransfer n]; exact hxs n hn)
    (by rw [htransfer a]; exact ha)
    (fun n hn => ⟨(hys n hn).1, by rw [htransfer n]; exact (hys n hn).2⟩)]
  dsimp only
  rw [hget]
  refine ⟨?_, ?_, ?_⟩
  · simp only [List.nil_append, List.append_nil, List.map_map]
    rw [show (StepObj.cachePath ∘ fun s : StepObj =>
        { idx := s.idx, names := s.names,
          cachePath := pathJoin (pathJoin (pipelineCachePathOf h rootCache env cfg) rid)
            (pad3 s.idx) }) =
      (fun s : StepObj =>
        pathJoin (pathJoin (pipelineCachePathOf h rootCache env cfg) rid) (pad3 s.idx))
      from rfl]
    rw [buildRepoStepsFrom_paths]
    rfl
  · rfl
  · intro n hn
    exact regUpdate_lookup_ne reg a pa.mtime n hn

/-- C4 counterexample: a pipeline with two repositories `r1`, `r2` and
an updated analyzer `a` (source-repo ID `A`) in step 0.  The pass over
`r1` deletes `root/P/r2/000/A` — the *last* repository's copy of `a`'s
cache, because the shared cache-path slot was overwritten during path
propagation — and `r1`'s downstream step cache; `a`'s directory in `r1`
(`root/P/r1/000/A`) is never deleted.  This contradicts "deletes A's
cache … in that repository … and no other repository or pipeline is
affected". -/
theorem c4_counterexample :
    (CreatePipelines hashConst "root" envP regP [cfgTwoRepos]).map BuildOut.deleted =
      .ok ["root/P/r2/000/A", "root/P/r1/001"] ∧
    "root/P/r2/000/A" ∈ ["root/P/r2/000/A", "root/P/r1/001"] ∧
    "root/P/r1/000/A" ∉ ["root/P/r2/000/A", "root/P/r1/001"] :=
  ⟨rfl, by decide, by decide⟩

/-- Witness for C4 at a concrete single-repository pipeline: updated
analyzer `a` in step 0 of two steps; exactly its step-0 directory and the
step-1 cache are deleted and the registry bumps `a` alone. -/
theorem c4_cache_invalidation_witness :
    ∃ out, CreatePipelines hashConst "root" envP regP [cfgOneRepo] = .ok out ∧
      out.deleted = ["root/P/r1/000/A", "root/P/r1/001"] ∧
      out.registry = regUpdate regP "a" 5 := by
  have hrun := CreatePipelines_single hashConst "root" envP regP cfgOneRepo rfl
    (fun hh => List.noConfusion hh)
  obtain ⟨pl, hpl, hdel, hreg, -⟩ := c4_cache_invalidation hashConst "root" envP regP
    cfgOneRepo "r1" "a" ⟨"A", 5, ""⟩ [] [["z"]] [] [] rfl rfl rfl rfl
    (by simp) (by simp) (by decide) (by simp) (by decide) _ hrun
  obtain ⟨rfl, -⟩ := List.cons.inj hpl
  exact ⟨_, hrun, by rw [hdel]; rfl, hreg⟩

/-! # Claim C9: per-analyzer cache directories -/

/-- C9 (amended): every cache-path assignment writes
`step.cache_path / analyzer_source_repo_id`, i.e.
`root_cache/pipeline.id/repo.id/step_idx(3 digits)/analyzer_source_repo_id`,
and every step's cache path follows the spec formula; but analyzer
objects are shared by name and hold a *single* mutable path slot, so
after plan building the slot holds the path of the last (repository,
step) that references the name: for an analyzer whose last step
occurrence is step `k`, the recorded directory lies under the pipeline's
*last* repository at index `k`.  When the same name appears in two steps
both references use that one directory, not two distinct per-step
directories. -/
theorem c9_analyzer_cache_path (h : String → String) (rootCache : String) (env : Env)
    (reg : Registry) (cfg : PipelineCfg) (rpre : List String) (rl : String)
    (name : String) (p : PluginObj) (spre spost : List (List String)) (sk : List String)
    (hrepos : cfg.repos = rpre ++ [rl])
    (hsteps : cfg.steps = spre ++ sk :: spost)
    (hmem : name ∈ sk)
    (hpost : ∀ names ∈ spost, name ∉ names)
    (hp : lookupA env name = some p)
    (hres : allResolvable env cfg.steps = true) :
    ∀ out, CreatePipelines h rootCache env reg [cfg] = .ok out →
      ∃ pl, out.pipelines = [pl] ∧
        lookupA out.env name =
          some ⟨p.repoID, p.mtime, analyzerCachePath pl.cachePath rl spre.length p.repoID⟩ ∧
        (∀ rp ∈ pl.repos, rp.cachePath = pathJoin pl.cachePath rp.rid ∧
          ∀ sp ∈ rp.steps, sp.cachePath = stepCachePath pl.cachePath rp.rid sp.idx) := by
  intro out hout
  have hne : cfg.repos ≠ [] := by
    rw [hrepos]
    intro hh
    have := congrArg List.length hh
    simp at this
  rw [CreatePipelines_single h rootCache env reg cfg hres hne] at hout
  obtain rfl := (Except.ok.inj hout).symm
  refine ⟨_, rfl, ?_, ?_⟩
  · have hb1 : buildPipelineRepos cfg =
        rpre.map (fun rid => ⟨rid, buildRepoSteps cfg.steps, ""⟩) ++
          [⟨rl, buildRepoSteps cfg.steps, ""⟩] := by
      rw [buildPipelineRepos, hrepos, List.map_append, List.map_cons, List.map_nil]
    have hbs : buildRepoSteps cfg.steps =
        buildRepoStepsFrom 0 spre ++
          (⟨spre.length, sk, ""⟩ :: buildRepoStepsFrom (spre.length + 1) spost) := by
      rw [buildRepoSteps, hsteps, buildRepoStepsFrom_append spre _ 0, buildRepoStepsFrom]
      rw [Nat.zero_add]
    have hpostS : ∀ s' ∈ buildRepoStepsFrom (spre.length + 1) spost, name ∉ s'.names :=
      fun s' hs' => hpost s'.names (buildRepoStepsFrom_names spost _ s' hs')
    show lookupA ((propagatedOf h rootCache env cfg).1) name = _
    rw [propagatedOf, hb1]
    exact reposFold_final (rpre.map _) ⟨rl, buildRepoSteps cfg.steps, ""⟩
      (pipelineCachePathOf h rootCache env cfg) (env, []) name p
      (buildRepoStepsFrom 0 spre) ⟨spre.length, sk, ""⟩
      (buildRepoStepsFrom (spre.length + 1) spost) hbs hmem hpostS hp
  · intro rp hrp
    show _ = pathJoin (pipelineCachePathOf h rootCache env cfg) rp.rid ∧ _
    have hsnd : (propagatedOf h rootCache env cfg).2 =
        (buildPipelineRepos cfg).map (fun r =>
          { r with
              cachePath := pathJoin (pipelineCachePathOf h rootCache env cfg) r.rid,
              steps := r.steps.map (fun s =>
                { s with
                    cachePath :=
                      pathJoin (pathJoin (pipelineCachePathOf h rootCache env cfg) r.rid)
                        (pad3 s.idx) }) }) := by
      rw [propagatedOf, reposFold_snd, List.nil_append]
    rw [hsnd] at hrp
    rcases List.mem_map.1 hrp with ⟨r0, -, rfl⟩
    refine ⟨rfl, ?_⟩
    intro sp hsp
    rcases List.mem_map.1 hsp with ⟨s0, -, rfl⟩
    rfl

/-- C9 counterexample: analyzer `p` (source-repo ID `PID`) referenced by
step 0 and step 1 of the same single-repository pipeline.  After plan
building the shared object's one cache-path slot holds step 1's
directory `root/P/r1/001/PID`, so the step-0 reference does not use a
distinct per-step directory `root/P/r1/000/PID` — both references read
and write the same directory. -/
theorem c9_counterexample :
    (CreatePipelines hashConst "root" envDup regDup [cfgDup]).map
        (fun out => (pluginGet out.env "p").cachePath) = .ok "root/P/r1/001/PID" ∧
    "root/P/r1/001/PID" ≠ "root/P/r1/000/PID" :=
  ⟨rfl, by decide⟩

/-- Witness for C9 at the duplicated-reference pipeline: the shared slot
records the last referencing step's directory. -/
theorem c9_analyzer_cache_path_witness :
    ∃ out, CreatePipelines hashConst "root" envDup regDup [cfgDup] = .ok out ∧
      lookupA out.env "p" = some ⟨"PID", 0, "root/P/r1/001/PID"⟩ := by
  have hrun := CreatePipelines_single hashConst "root" envDup regDup cfgDup rfl
    (fun hh => List.noConfusion hh)
  obtain ⟨pl, hpl, hlook, -⟩ := c9_analyzer_cache_path hashConst "root" envDup regDup cfgDup
    [] "r1" "p" ⟨"PID", 0, ""⟩ [["p"]] [] ["p"] rfl rfl (by decide) (by simp) rfl rfl _ hrun
  obtain ⟨rfl, -⟩ := List.cons.inj hpl
  refine ⟨_, hrun, ?_⟩
  rw [hlook]
  rfl

end Treport
